import Mathlib

/-!
Verification of the native value marshaling and array slicing/broadcasting
core of this repository, as a shallow embedding in Lean 4.

The embedding follows the runtime semantics of the generated code:

* `ArraySlicing` embeds `numbapro/array_slicing.py`: the per-axis slice
  normalization routine (`SliceArray.body` and its index-adjustment
  helpers) and the shape broadcasting routine (`Broadcast.body` together
  with `visit_BroadcastNode`).  Machine integers of type `npy_intp` are
  modeled as `Int`; the C signed division and remainder emitted by the
  code builder are `Int.tdiv` and `Int.tmod` (truncation towards zero).
  C arrays accessed through pointers are modeled as `List Int` with
  `List.getD` reads and `List.set` writes.

* `PyApi` embeds `numba/pythonapi.py`: the `NativeValue` result record,
  the composite converters `to_native_tuple` and `to_native_optional`
  (with cleanup actions modeled as state transformers so that "runs
  exactly once, in reverse order" is observable), the module-level
  serialization cache of `serialize_object`, and the full
  `to_native_value` / `from_native_value` dispatch over a boxed object
  domain.  External CPython API calls and numba C helpers are modeled
  from the specification where their code is not part of the sources
  under scrutiny; every such definition is marked in its doc comment.
-/

namespace ArraySlicing

/-- Result of the generated `slice` function for a single axis: the byte
offset added to the data pointer, and the extent and stride stored into
the destination shape/stride arrays. -/
structure SliceRes where
  dataOffset : Int
  newExtent : Int
  newStride : Int
  deriving Repr, DecidableEq

/-- Embeds `SliceArray._adjust_given_index`: normalization of a present
start/stop index against the axis extent. -/
def adjustGivenIndex (extent : Int) (negativeStep : Bool) (index : Int)
    (isStart : Bool) : Int :=
  if index < 0 then
    let index := index + extent
    if index < 0 then 0 else index
  else
    if index ≥ extent then
      if isStart then
        if negativeStep then extent - 1 else extent
      else
        extent
    else index

/-- Embeds `SliceArray._set_default_index`: the default used for an
absent start/stop index. -/
def setDefaultIndex (default1 default2 : Int) (negativeStep : Bool) : Int :=
  if negativeStep then default1 else default2

/-- Embeds `SliceArray.adjust_index`: dispatch between the present-index
normalization and the absent-index default. -/
def adjustIndex (extent : Int) (negativeStep : Bool) (index : Option Int)
    (default1 default2 : Int) (isStart : Bool) : Int :=
  match index with
  | some i => adjustGivenIndex extent negativeStep i isStart
  | none => setDefaultIndex default1 default2 negativeStep

/-- Embeds `SliceArray.body` for one axis.  `extent` and `stride` are the
source axis extent `in_shape[src_dim]` and stride `in_strides[src_dim]`;
`start`, `stop`, `step` are `none` when the corresponding slice component
is absent (the `have_start`/`have_stop`/`have_step` specializations).
Note the code zeroes the local `stride` variable when the new extent is 1
and only afterwards computes `data[start * stride:]` and
`out_strides[dst_dim] = stride * step`. -/
def sliceArray (extent stride : Int) (start stop step : Option Int) :
    SliceRes :=
  let step := step.getD 1
  let negativeStep := decide (step < 0)
  let start := adjustIndex extent negativeStep start (extent - 1) 0 true
  let stop := adjustIndex extent negativeStep stop (-1) extent false
  let newExtent := (stop - start).tdiv step
  let newExtent := if (stop - start).tmod step ≠ 0 then newExtent + 1
                   else newExtent
  let newExtent := if newExtent < 0 then 0 else newExtent
  let stride := if newExtent = 1 then 0 else stride
  { dataOffset := start * stride
    newExtent := newExtent
    newStride := stride * step }

/-- Follows the spec wording for start normalization: absent start
defaults to `extent-1` for a negative step, else 0; a negative start has
extent added and is clamped to 0 if still negative; a start `≥ extent` is
clamped to `extent-1` for a negative step, else `extent`. -/
def specNormStart (extent : Int) (negativeStep : Bool)
    (start : Option Int) : Int :=
  match start with
  | none => if negativeStep then extent - 1 else 0
  | some s =>
      if s < 0 then max (s + extent) 0
      else if s ≥ extent then (if negativeStep then extent - 1 else extent)
      else s

/-- Follows the spec wording for stop normalization: absent stop defaults
to `-1` for a negative step, else `extent`; a negative stop has extent
added and is clamped to 0 if still negative; a stop greater than extent
is clamped to `extent`. -/
def specNormStop (extent : Int) (negativeStep : Bool)
    (stop : Option Int) : Int :=
  match stop with
  | none => if negativeStep then -1 else extent
  | some s =>
      if s < 0 then max (s + extent) 0
      else if s > extent then extent
      else s

/-- Follows the spec wording for the new extent: `(stop-start)/step`,
incremented by one if the remainder is nonzero, clamped to 0 if
negative. -/
def specNewExtent (start stop step : Int) : Int :=
  let q := (stop - start).tdiv step
  let q := if (stop - start).tmod step ≠ 0 then q + 1 else q
  max q 0

/-- Embeds the loop of `Broadcast.body`.  `srcShape`/`srcStrides` belong
to one operand with `ndim` axes, `dstShape` is the destination shape of
`maxNdim` axes, `dimOffset = max_ndim - ndim`.  Iteration `i` reads
`src_extent = src_shape[i]` and `dst_extent = dst_shape[i + dim_offset]`;
an operand extent of 1 zeroes `src_strides[i]`, else a destination
extent of 1 adopts the operand extent, else differing extents return 0
immediately (keeping all updates already applied); the loop returns 1
when all axes pass. -/
def broadcastLoop (srcShape : List Int) (dimOffset ndim : Nat)
    (dstShape srcStrides : List Int) (i : Nat) :
    Int × List Int × List Int :=
  if i < ndim then
    if srcShape.getD i 0 = 1 then
      broadcastLoop srcShape dimOffset ndim dstShape (srcStrides.set i 0)
        (i + 1)
    else if dstShape.getD (i + dimOffset) 0 = 1 then
      broadcastLoop srcShape dimOffset ndim
        (dstShape.set (i + dimOffset) (srcShape.getD i 0)) srcStrides (i + 1)
    else if srcShape.getD i 0 ≠ dstShape.getD (i + dimOffset) 0 then
      (0, dstShape, srcStrides)
    else
      broadcastLoop srcShape dimOffset ndim dstShape srcStrides (i + 1)
  else
    (1, dstShape, srcStrides)
termination_by ndim - i

/-- Embeds the generated `broadcast` function (`Broadcast.body`): runs
the per-axis loop from axis 0 with `dim_offset = max_ndim - ndim`.
Returns the C `int` return value together with the final destination
shape and operand strides. -/
def broadcastBody (dstShape srcShape srcStrides : List Int)
    (maxNdim ndim : Nat) : Int × List Int × List Int :=
  broadcastLoop srcShape (maxNdim - ndim) ndim dstShape srcStrides 0

/-- One array operand of a broadcast: its shape and strides
descriptors. -/
structure Operand where
  shape : List Int
  strides : List Int
  deriving Repr, DecidableEq

/-- Embeds the operand loop of
`NativeSliceCodegenMixin.visit_BroadcastNode`: each array operand is
passed to `broadcast` with `node.array_type.ndim` and its own `ndim`,
against the shared destination shape; the return values are collected
for the later error checks.  Returns (return values, final destination
shape, per-operand final strides). -/
def visitBroadcastLoop (maxNdim : Nat) (dstShape : List Int)
    (ops : List Operand) : List Int × List Int × List (List Int) :=
  match ops with
  | [] => ([], dstShape, [])
  | op :: rest =>
      let r := broadcastBody dstShape op.shape op.strides maxNdim
        op.shape.length
      let rest' := visitBroadcastLoop maxNdim r.2.1 rest
      (r.1 :: rest'.1, rest'.2.1, r.2.2 :: rest'.2.2)

/-- Embeds `visit_BroadcastNode`: the destination shape is initialized
to all ones, then every array operand is broadcast into it. -/
def visitBroadcastNode (maxNdim : Nat) (ops : List Operand) :
    List Int × List Int × List (List Int) :=
  visitBroadcastLoop maxNdim (List.replicate maxNdim 1) ops

/-- An error raised back to the user, as an exception type plus
message. -/
structure RaisedError where
  excType : String
  excMsg : String
  deriving Repr, DecidableEq

/-- Modelled from the spec: `nodes.CheckErrorNode(return_value, 0,
exc_type=ValueError, exc_msg="Shape mismatch while broadcasting")` as
built by `BroadcastNode.__init__` (the `CheckErrorNode` class itself is
not part of the sources under scrutiny): when the checked return value
equals the bad value 0, a `ValueError` with the fixed message is
raised. -/
def checkBroadcastError (retval : Int) : Option RaisedError :=
  if retval = 0 then
    some ⟨"ValueError", "Shape mismatch while broadcasting"⟩
  else none

/-- The first error raised by the `check_errors` nodes of a
`BroadcastNode` after all operands were processed. -/
def broadcastRaised (maxNdim : Nat) (ops : List Operand) :
    Option RaisedError :=
  ((visitBroadcastNode maxNdim ops).1.filterMap checkBroadcastError).head?

/-- The extent an operand contributes at destination axis `j`: its own
extent at `j - dim_offset` for the axes it covers, and 1 (broadcastable)
for leading axes it does not cover. -/
def extAt (maxNdim : Nat) (op : Operand) (j : Nat) : Int :=
  if maxNdim - op.shape.length ≤ j then
    op.shape.getD (j - (maxNdim - op.shape.length)) 0
  else 1

/-- Two extents are broadcast-compatible when either is 1 or they are
equal. -/
def compatExt (srcExtent dstExtent : Int) : Prop :=
  srcExtent = 1 ∨ dstExtent = 1 ∨ srcExtent = dstExtent

instance (s d : Int) : Decidable (compatExt s d) := by
  unfold compatExt; infer_instance

/-- Combination of a destination extent with a compatible operand
extent: an operand extent of 1 leaves the destination alone, otherwise a
destination extent of 1 adopts the operand extent, otherwise (equal
extents) the destination is kept. -/
def combineExt (dstExtent srcExtent : Int) : Int :=
  if srcExtent = 1 then dstExtent
  else if dstExtent = 1 then srcExtent
  else dstExtent

/-- A destination extent is sequentially compatible with a list of
operand extents when each step is compatible with the running combined
extent. -/
def chainOK (d : Int) : List Int → Prop
  | [] => True
  | s :: rest => compatExt s d ∧ chainOK (combineExt d s) rest

instance (d : Int) (ss : List Int) : Decidable (chainOK d ss) := by
  induction ss generalizing d with
  | nil => exact .isTrue trivial
  | cons s rest ih => exact @instDecidableAnd _ _ _ (ih _)

/-- The spec-side failure condition of a whole broadcast: some
destination axis receives two differing non-1 extents from the
operands. -/
def noConflict (maxNdim : Nat) (ops : List Operand) : Prop :=
  ∀ j < maxNdim, ∀ a ∈ ops, ∀ b ∈ ops,
    extAt maxNdim a j ≠ 1 → extAt maxNdim b j ≠ 1 →
      extAt maxNdim a j = extAt maxNdim b j

instance (maxNdim : Nat) (ops : List Operand) :
    Decidable (noConflict maxNdim ops) := by
  unfold noConflict; infer_instance

/-- The spec-side agreement condition on a list of extents: any two
non-1 entries are equal. -/
def agreeNonOne (l : List Int) : Prop :=
  ∀ a ∈ l, ∀ b ∈ l, a ≠ 1 → b ≠ 1 → a = b

end ArraySlicing

namespace PyApi

/-- Embeds the `NativeValue` record of `pythonapi.py`: the produced
native value, the error bit (`false_bit` when a conversion cannot
fail), and the optional cleanup action.  Cleanup actions are modeled as
state transformers over a state type `σ` so that invocation order and
multiplicity are observable. -/
structure NativeValue (α σ : Type) where
  value : α
  is_error : Bool
  cleanup : Option (σ → σ)

/-- Runs an optional cleanup action on a state (a `None` cleanup is a
no-op). -/
def runCleanup (c : Option (σ → σ)) (st : σ) : σ :=
  match c with
  | none => st
  | some f => f st

/-- Embeds `PythonAPI.to_native_tuple`, parameterized by the child
`NativeValue` results of `to_native_value(tuple_getitem(obj, i),
eltype)` in element order: the child values are packed in order, the
error bit is the or-fold of the children's bits starting from
`false_bit`, the cleanups of the children that have one are collected
in conversion order, and when at least one exists the combined cleanup
runs them in reversed order. -/
def to_native_tuple (elems : List (NativeValue α σ)) :
    NativeValue (List α) σ :=
  { value := elems.map (·.value)
    is_error := elems.foldl (fun acc e => acc || e.is_error) false
    cleanup :=
      let cleanups := elems.filterMap (·.cleanup)
      if cleanups.isEmpty then none
      else some (fun st => cleanups.reverse.foldl (fun st f => f st) st) }

/-- A child conversion result whose cleanup, when present, appends the
tag `tag` to the observation trace; used to observe which cleanups the
combined tuple cleanup runs and in which order. -/
def taggedChild (v : α) (err : Bool) (tag : Option Nat) :
    NativeValue α (List Nat) :=
  { value := v
    is_error := err
    cleanup := tag.map (fun t => fun st => st ++ [t]) }

/-- The inner conversion for a semantic type `T` as produced by code
generation: the runtime conversion path (producing a value and an error
bit, with an arbitrary observable state effect over `σ`) plus the
statically-known optional cleanup.  Whether the cleanup exists is fixed
at code-generation time, while the conversion's effects happen at run
time; both are needed to embed `to_native_optional` faithfully. -/
structure InnerConv (Obj α σ : Type) where
  run : Obj → σ → (α × Bool) × σ
  cleanup : Option (σ → σ)

/-- Embeds `PythonAPI.to_native_optional`: `is_not_none` compares `obj`
against the borrowed none singleton; the error slot starts as
`false_bit` and is stored only on the present branch, which delegates
to `T`'s conversion and wraps its value as present (`some`); the absent
branch stores the representation-level none value; the wrapped cleanup,
present exactly when `T`'s conversion has one, runs `T`'s cleanup under
a runtime `is_not_none` guard.  Returns the `NativeValue` and the final
runtime state. -/
def to_native_optional [DecidableEq Obj] (noneObj : Obj)
    (inner : InnerConv Obj α σ) (obj : Obj) (st : σ) :
    NativeValue (Option α) σ × σ :=
  if obj ≠ noneObj then
    ({ value := some ((inner.run obj st).1.1)
       is_error := (inner.run obj st).1.2
       cleanup := inner.cleanup.map
         (fun c => fun t => if obj ≠ noneObj then c t else t) },
      (inner.run obj st).2)
  else
    ({ value := none
       is_error := false
       cleanup := inner.cleanup.map
         (fun c => fun t => if obj ≠ noneObj then c t else t) }, st)

/-- A compilation module as far as `PythonAPI.serialize_object`
observes it: the `__serialized` cache mapping already-serialized
objects to their global constants, the number of encodings performed so
far (each a `pickle.dumps` plus two constant insertions), and a supply
of fresh constant identifiers (global constants are modeled as `Nat`).
Modelled from the spec for what concerns
`context.insert_unique_const` (not part of the sources under scrutiny):
each miss inserts fresh module-level constants and the cache maps the
object to the resulting structure constant. -/
structure SModule (K : Type) where
  serialized : List (K × Nat)
  encodeCount : Nat
  fresh : Nat

/-- Embeds `PythonAPI.serialize_object`: look the object up in the
module's `__serialized` cache; on a hit return the cached constant
unchanged, on a miss (`KeyError`) encode the object, insert the
constant, and record it in the cache. -/
def serialize_object [DecidableEq K] (m : SModule K) (obj : K) :
    Nat × SModule K :=
  match m.serialized.lookup obj with
  | some gv => (gv, m)
  | none =>
      (m.fresh,
        { serialized := (obj, m.fresh) :: m.serialized
          encodeCount := m.encodeCount + 1
          fresh := m.fresh + 1 })

section RoundTrip

variable (F32 F64 : Type)

/-- Boxed Python objects, as far as the converters observe them.
Modelled from the spec: the boxed-object runtime is an external
collaborator of `pythonapi.py`; only the structure its C API calls
exchange is represented.  `pyLong` is the arbitrary-precision integer,
`pyFloat`/`pyComplex` carry C doubles (the abstract type `F64`),
`pyRecord` a byte payload with its dtype identity, `pyArray` the
shape/strides/data payload held by an ndarray, `pyDatetime` /
`pyTimedelta` a 64-bit value with a unit code, and `pyGenerator` a
boxed generator object embedding a copy of the native generator state
structure. -/
inductive Box where
  | pyLong (z : Int)
  | pyBool (b : Bool)
  | pyFloat (x : F64)
  | pyComplex (re im : F64)
  | pyTuple (elems : List Box)
  | pyNone
  | pyDatetime (unit : Nat) (v : Int)
  | pyTimedelta (unit : Nat) (v : Int)
  | pyRecord (bytes : List Nat) (dtypeId : Nat)
  | pyArray (data : Int) (shape strides : List Int)
  | pyGenerator (state : List Nat)

/-- Native machine values.  `intV` carries the W-bit pattern as a
natural number below `2^W`; `f32V`/`c64V` carry single-precision
components (the abstract type `F32`); `recV` is a pointer to record
bytes (address plus pointed-at payload); `aryV` is the native array
descriptor filled by the array adaptor, including the parent boxed
object it was adapted from; `tupV` is the packed array/aggregate built
by the tuple conversion; `genV` is a pointer to a generator state
structure (address plus pointed-at state bytes); `objV` is an opaque
boxed handle passed through unconverted. -/
inductive NVal where
  | boolV (b : Bool)
  | intV (bits : Nat)
  | f32V (x : F32)
  | f64V (x : F64)
  | c64V (re im : F32)
  | c128V (re im : F64)
  | dtV (v : Int)
  | tdV (v : Int)
  | recV (addr : Nat) (bytes : List Nat)
  | aryV (data : Int) (shape strides : List Int) (parent : Box F64)
  | tupV (elems : List NVal)
  | genV (addr : Nat) (state : List Nat)
  | objV (obj : Box F64)

/-- The Semantic Types supported by both `to_native_value` and
`from_native_value` in `pythonapi.py`: boolean, integers of width
`width` (signed or unsigned), float32/float64, complex64/complex128,
datetime/timedelta with a unit code, fixed-size records (with the
dtype identity used when re-boxing), arrays of a given dimensionality,
homogeneous (`unituple`) and heterogeneous (`tuple`) tuples, generator
state (`generator`, carrying the ABI size of the state structure used
as the `numba_make_generator` copy length), and the opaque
`types.Object`/`types.pyobject` passthrough (`pyobject`).  `Optional`
is excluded: its `from_native_value` branch passes the optional union
value unchanged to the payload type's conversion, which is not
typeable here; `CharSeq` (boxing only) and external function pointers
(unboxing only) are supported in one direction only. -/
inductive NType where
  | bool
  | int (width : Nat) (signed : Bool)
  | f32
  | f64
  | c64
  | c128
  | datetime (unit : Nat)
  | timedelta (unit : Nat)
  | record (nbytes : Nat) (dtypeId : Nat)
  | array (ndim : Nat)
  | unituple (elem : NType) (n : Nat)
  | tuple (elems : List NType)
  | generator (size : Nat)
  | pyobject

variable {F32 F64}

/-- Modelled from the spec: `PyBool_FromLong` (via `bool_from_long`)
boxes any nonzero long as the true singleton. -/
def bool_from_long (l : Int) : Box F64 :=
  .pyBool (decide (l ≠ 0))

/-- Modelled from the spec: `PyObject_IsTrue` (via `object_istrue`),
the truth-test runtime call; returns the C int result and whether a
pending error was raised (kinds this development never truth-tests
report an error). -/
def object_istrue : Box F64 → Int × Bool
  | .pyBool b => (if b then 1 else 0, false)
  | .pyLong z => (if z = 0 then 0 else 1, false)
  | .pyNone => (0, false)
  | _ => (-1, true)

/-- Modelled from the spec: `PyNumber_Long` (via `number_long`),
coercion to an arbitrary-precision integer; `none` is the NULL return
with a pending error. -/
def number_long : Box F64 → Option (Box F64)
  | .pyLong z => some (.pyLong z)
  | .pyBool b => some (.pyLong (if b then 1 else 0))
  | _ => none

/-- Modelled from the spec: `PyLong_AsLongLong`, extraction as a 64-bit
signed integer; out-of-range values return -1 with a pending
overflow error. -/
def long_as_longlong : Box F64 → Int × Bool
  | .pyLong z =>
      if -(2 ^ 63) ≤ z ∧ z < 2 ^ 63 then (z, false) else (-1, true)
  | _ => (-1, true)

/-- Modelled from the spec: `PyLong_AsUnsignedLongLong`, extraction as
a 64-bit unsigned integer. -/
def long_as_ulonglong : Box F64 → Int × Bool
  | .pyLong z =>
      if 0 ≤ z ∧ z < 2 ^ 64 then (z, false) else (-1, true)
  | _ => (-1, true)

/-- Modelled from the spec: `PyNumber_Float` (via `number_float`),
coercion to a float object. -/
def number_float : Box F64 → Option (Box F64)
  | .pyFloat x => some (.pyFloat x)
  | _ => none

/-- Modelled from the spec: `PyFloat_AsDouble` on a non-NULL float
object. -/
def float_as_double : Box F64 → Option F64
  | .pyFloat x => some x
  | _ => none

/-- Modelled from the spec: `numba_complex_adaptor`, which fills a
native complex128 struct from a complex object and reports success as
a boolean. -/
def complex_adaptor : Box F64 → Option (F64 × F64)
  | .pyComplex re im => some (re, im)
  | _ => none

/-- Modelled from the spec: `numba_extract_np_datetime`, reading the
64-bit value out of a datetime scalar object. -/
def extract_np_datetime : Box F64 → Option Int
  | .pyDatetime _ v => some v
  | _ => none

/-- Modelled from the spec: `numba_extract_np_timedelta`. -/
def extract_np_timedelta : Box F64 → Option Int
  | .pyTimedelta _ v => some v
  | _ => none

/-- Modelled from the spec: `numba_extract_record_data`, acquiring a
buffer view of a record object and returning the pointed-at bytes
(`none` is the NULL pointer on failure). -/
def extract_record_data : Box F64 → Option (List Nat)
  | .pyRecord bytes _ => some bytes
  | _ => none

/-- Modelled from the spec: `numba_recreate_record`, boxing a copy of
the record bytes under the given dtype object. -/
def recreate_record (bytes : List Nat) (dtypeId : Nat) : Box F64 :=
  .pyRecord bytes dtypeId

/-- Modelled from the spec: `numba_adapt_ndarray`, which validates an
ndarray object of the expected dimensionality and fills the native
descriptor (data, shape, strides) from it, recording the object itself
as the parent; a nonzero return code (`none` here) signals failure.
Element-type compatibility is deliberately not checked (the documented
soundness gap). -/
def numba_array_adaptor (nd : Nat) : Box F64 → Option (Int × List Int × List Int)
  | .pyArray data shape strides =>
      if shape.length = nd ∧ strides.length = nd then
        some (data, shape, strides)
      else none
  | _ => none

/-- Modelled from the spec: `PyTuple_GetItem` (via `tuple_getitem`),
the borrowed per-index accessor. -/
def tuple_getitem : Box F64 → Nat → Box F64
  | .pyTuple es, i => es.getD i .pyNone
  | _, _ => .pyNone

/-- Modelled from the spec: `context.get_generator_state`, which reads
the generator's internal state-structure pointer directly from the
boxed generator handle; no conversion, and it never errors (it assumes
a well-formed handle).  The returned pointer is modeled by the
pointed-at state bytes. -/
def get_generator_state : Box F64 → List Nat
  | .pyGenerator state => state
  | _ => []

/-- Modelled from the spec: `numba_make_generator(state_size,
initial_state, nextfunc, finalizer, env)`, which allocates a new boxed
generator object embedding a size-prefixed copy of `state_size` bytes
of the native generator state structure (the resume function pointer,
optional finalizer and environment come from the code generator, not
from the value). -/
def numba_make_generator (stateSize : Nat) (initialState : List Nat) :
    Box F64 :=
  .pyGenerator (initialState.take stateSize)

/-- The W-bit truncation `builder.trunc(llval, ll_type)`: the low `w`
bits of the two's-complement representation. -/
def toBits (w : Nat) (z : Int) : Nat :=
  (z % ((2 : Int) ^ w)).toNat

/-- The `builder.sext` of a W-bit pattern to the 64-bit signed value it
denotes. -/
def sextV (w : Nat) (bits : Nat) : Int :=
  if bits < 2 ^ (w - 1) then (bits : Int) else (bits : Int) - 2 ^ w

end RoundTrip

section RoundTrip2

variable {F32 F64 : Type} (fpext : F32 → F64) (fptrunc : F64 → F32)

mutual

/-- Embeds `PythonAPI.from_native_value` over the supported catalog:
booleans are boxed through `bool_from_long` of the zero-extended bit;
signed integers are sign-extended to 64 bits and boxed through
`PyLong_FromLongLong`, unsigned ones zero-extended and boxed through
`PyLong_FromUnsignedLongLong`; float32 is extended to double before
`PyFloat_FromDouble`; complex64 components are cast to float64 before
`PyComplex_FromDoubles`; datetimes/timedeltas are created with the
type's unit code; records are re-boxed as a copy of the native bytes
under the type's dtype object; arrays return the parent boxed object
(with its reference count incremented — reference counts are not
modeled); tuples are built element by element; generator state is
embedded as a size-prefixed copy into a new boxed generator through
`numba_make_generator`; the opaque pyobject value is returned
unchanged. -/
def from_native : NType → NVal F32 F64 → Box F64
  | .bool, .boolV b => bool_from_long (if b then (1 : Int) else 0)
  | .int w true, .intV bits => .pyLong (sextV w bits)
  | .int _ false, .intV bits => .pyLong (bits : Int)
  | .f32, .f32V x => .pyFloat (fpext x)
  | .f64, .f64V x => .pyFloat x
  | .c64, .c64V re im => .pyComplex (fpext re) (fpext im)
  | .c128, .c128V re im => .pyComplex re im
  | .datetime u, .dtV v => .pyDatetime u v
  | .timedelta u, .tdV v => .pyTimedelta u v
  | .record _ dtid, .recV _ bytes => recreate_record bytes dtid
  | .array _, .aryV _ _ _ parent => parent
  | .unituple t _, .tupV es => .pyTuple (from_native_uni t es)
  | .tuple ts, .tupV es => .pyTuple (from_native_zip ts es)
  | .generator size, .genV _ state => numba_make_generator size state
  | .pyobject, .objV obj => obj
  | _, _ => .pyNone
termination_by t v => sizeOf t + sizeOf v

/-- The `from_native_tuple` element loop for a homogeneous tuple: every
element is converted at the same element type. -/
def from_native_uni : NType → List (NVal F32 F64) → List (Box F64)
  | _, [] => []
  | t, v :: vs => from_native t v :: from_native_uni t vs
termination_by t vs => sizeOf t + sizeOf vs

/-- The `from_native_tuple` element loop for a heterogeneous tuple:
element `i` is converted at the `i`-th element type. -/
def from_native_zip : List NType → List (NVal F32 F64) → List (Box F64)
  | [], _ => []
  | _ :: _, [] => []
  | t :: ts, v :: vs => from_native t v :: from_native_zip ts vs
termination_by ts vs => sizeOf ts + sizeOf vs

end

mutual

/-- Embeds `PythonAPI.to_native_value` over the supported catalog,
following the source's dispatch: booleans truth-test and compare
nonzero with the pending-error check; integers coerce through
`PyNumber_Long`, extract as 64-bit signed/unsigned and truncate to the
target width (an extraction failure leaves the error bit set); floats
coerce through `PyNumber_Float` and extract as double, narrowing to
single precision for float32; complex values go through the complex
adaptor, narrowing components for complex64; datetimes/timedeltas are
extracted by the corresponding helpers; records acquire a buffer view
of the object's bytes (the associated buffer-release cleanup is
verified separately with the composite-conversion embeddings); arrays
run the array adaptor which also records the object as parent; tuples
convert every element recursively through the borrowed `tuple_getitem`
accessor, or-ing the error bits; generators read the state-structure
pointer out of the boxed generator handle with no conversion and never
error; the opaque pyobject kind passes the handle through unchanged
and never errors.  Returns the native value and the error bit. -/
def to_native : NType → Box F64 → NVal F32 F64 × Bool
  | .pyobject, obj => (.objV obj, false)
  | .bool, obj =>
      ((.boolV (decide ((object_istrue obj).1 ≠ 0))),
        (object_istrue obj).2)
  | .int w s, obj =>
      match number_long obj with
      | none => (.intV 0, true)
      | some lo =>
          if s then
            (.intV (toBits w (long_as_longlong lo).1),
              (long_as_longlong lo).2)
          else
            (.intV (toBits w (long_as_ulonglong lo).1),
              (long_as_ulonglong lo).2)
  | .f32, obj =>
      match number_float obj with
      | none => (.boolV false, true)
      | some fo =>
          match float_as_double fo with
          | none => (.boolV false, true)
          | some d => (.f32V (fptrunc d), false)
  | .f64, obj =>
      match number_float obj with
      | none => (.boolV false, true)
      | some fo =>
          match float_as_double fo with
          | none => (.boolV false, true)
          | some d => (.f64V d, false)
  | .c64, obj =>
      match complex_adaptor obj with
      | none => (.boolV false, true)
      | some (re, im) => (.c64V (fptrunc re) (fptrunc im), false)
  | .c128, obj =>
      match complex_adaptor obj with
      | none => (.boolV false, true)
      | some (re, im) => (.c128V re im, false)
  | .datetime _, obj =>
      match extract_np_datetime obj with
      | none => (.dtV 0, true)
      | some v => (.dtV v, false)
  | .timedelta _, obj =>
      match extract_np_timedelta obj with
      | none => (.tdV 0, true)
      | some v => (.tdV v, false)
  | .record _ _, obj =>
      match extract_record_data obj with
      | none => (.recV 0 [], true)
      | some bytes => (.recV 0 bytes, false)
  | .array nd, obj =>
      match numba_array_adaptor nd obj with
      | none => (.aryV 0 [] [] .pyNone, true)
      | some (data, shape, strides) =>
          (.aryV data shape strides obj, false)
  | .unituple t n, obj =>
      (.tupV ((to_native_uni t obj 0 n).map (fun r => r.1)),
        (to_native_uni t obj 0 n).foldl (fun a r => a || r.2) false)
  | .tuple ts, obj =>
      (.tupV ((to_native_zip ts obj 0).map (fun r => r.1)),
        (to_native_zip ts obj 0).foldl (fun a r => a || r.2) false)
  | .generator _, obj => (.genV 0 (get_generator_state obj), false)
termination_by t obj => sizeOf t

/-- The `to_native_tuple` element loop for a homogeneous tuple:
`enumerate(typ)` yields the element type for each of the `n` indices. -/
def to_native_uni :
    NType → Box F64 → Nat → Nat → List (NVal F32 F64 × Bool)
  | _, _, _, 0 => []
  | t, obj, i, k + 1 =>
      to_native t (tuple_getitem obj i) :: to_native_uni t obj (i + 1) k
termination_by t obj i k => sizeOf t + k

/-- The `to_native_tuple` element loop for a heterogeneous tuple:
index `i` is converted at the `i`-th element type. -/
def to_native_zip :
    List NType → Box F64 → Nat → List (NVal F32 F64 × Bool)
  | [], _, _ => []
  | t :: ts, obj, i =>
      to_native t (tuple_getitem obj i) :: to_native_zip ts obj (i + 1)
termination_by ts obj i => sizeOf ts

end

end RoundTrip2

section RoundTrip3

variable {F32 F64 : Type}

mutual

/-- Typing of native values by Semantic Types.  Integer patterns must
fit the (supported, at most 64-bit) width; record payloads must have
the type's byte count; array descriptors must be representative values:
their parent is the boxed array they were adapted from (the documented
assumption of `from_native_array` that every native array value
originated from an existing boxed object); generator state pointers
point at a state structure of the type's ABI size. -/
def hasType : NType → NVal F32 F64 → Prop
  | .bool, .boolV _ => True
  | .int w _, .intV bits => 0 < w ∧ w ≤ 64 ∧ bits < 2 ^ w
  | .f32, .f32V _ => True
  | .f64, .f64V _ => True
  | .c64, .c64V _ _ => True
  | .c128, .c128V _ _ => True
  | .datetime _, .dtV _ => True
  | .timedelta _, .tdV _ => True
  | .record n _, .recV _ bytes => bytes.length = n
  | .array nd, .aryV data shape strides parent =>
      shape.length = nd ∧ strides.length = nd ∧
        parent = .pyArray data shape strides
  | .unituple t n, .tupV es => es.length = n ∧ hasTypeUni t es
  | .tuple ts, .tupV es => hasTypeZip ts es
  | .generator size, .genV _ state => state.length = size
  | .pyobject, .objV _ => True
  | _, _ => False
termination_by t v => sizeOf t + sizeOf v

/-- Elementwise typing at one element type. -/
def hasTypeUni : NType → List (NVal F32 F64) → Prop
  | _, [] => True
  | t, v :: vs => hasType t v ∧ hasTypeUni t vs
termination_by t vs => sizeOf t + sizeOf vs

/-- Elementwise typing at a list of element types (same length). -/
def hasTypeZip : List NType → List (NVal F32 F64) → Prop
  | [], [] => True
  | t :: ts, v :: vs => hasType t v ∧ hasTypeZip ts vs
  | _, _ => False
termination_by ts vs => sizeOf ts + sizeOf vs

end

mutual

/-- The payload of a native value: identity components — the record
pointer address, the array's parent object reference and the generator
state pointer address — are erased.  Payload equality ("bit-for-bit
except object identity for reference-counted kinds") is equality of
`stripIdentity` images. -/
def stripIdentity : NVal F32 F64 → NVal F32 F64
  | .recV _ bytes => .recV 0 bytes
  | .aryV data shape strides _ => .aryV data shape strides .pyNone
  | .tupV es => .tupV (stripIdentityList es)
  | .genV _ state => .genV 0 state
  | .objV obj => .objV obj
  | .boolV b => .boolV b
  | .intV bits => .intV bits
  | .f32V x => .f32V x
  | .f64V x => .f64V x
  | .c64V re im => .c64V re im
  | .c128V re im => .c128V re im
  | .dtV v => .dtV v
  | .tdV v => .tdV v

/-- `stripIdentity` on every element. -/
def stripIdentityList : List (NVal F32 F64) → List (NVal F32 F64)
  | [] => []
  | v :: vs => stripIdentity v :: stripIdentityList vs

end

end RoundTrip3

end PyApi

namespace ArraySlicing

theorem adjustIndex_start_eq (extent : Int) (neg : Bool) (start : Option Int) :
    adjustIndex extent neg start (extent - 1) 0 true =
      specNormStart extent neg start := by
  cases start with
  | none => cases neg <;> simp [adjustIndex, setDefaultIndex, specNormStart]
  | some s =>
      cases neg <;>
        (simp [adjustIndex, adjustGivenIndex, specNormStart]
         split_ifs <;> omega)

theorem adjustIndex_stop_eq (extent : Int) (neg : Bool) (stop : Option Int) :
    adjustIndex extent neg stop (-1) extent false =
      specNormStop extent neg stop := by
  cases stop with
  | none => cases neg <;> simp [adjustIndex, setDefaultIndex, specNormStop]
  | some s =>
      cases neg <;>
        (simp [adjustIndex, adjustGivenIndex, specNormStop]
         split_ifs <;> omega)

theorem sliceArray_newExtent_eq (extent stride : Int)
    (start stop step : Option Int) :
    (sliceArray extent stride start stop step).newExtent =
      specNewExtent (specNormStart extent (decide (step.getD 1 < 0)) start)
        (specNormStop extent (decide (step.getD 1 < 0)) stop)
        (step.getD 1) := by
  simp only [sliceArray, specNewExtent, adjustIndex_start_eq,
    adjustIndex_stop_eq]
  split_ifs <;> omega

/-- Claim C3: slice start/stop normalization matches the spec's contract
exactly (absent-index defaults, negative-index wraparound with clamping
to 0, too-large-index clamping depending on the step sign), the new
extent is `(stop-start)/step` rounded away by one on a nonzero remainder
and clamped to 0 when negative, and the two concrete cases behave as
stated: `slice_axis(extent=10, start=-3, step=1)` normalizes start to 7
with extent 3, and `slice_axis(extent=5, start=0, stop=5, step=-1)`
yields extent 0. -/
theorem slice_axis_normalization_contract :
    (∀ (extent : Int) (neg : Bool) (start : Option Int),
        adjustIndex extent neg start (extent - 1) 0 true =
          specNormStart extent neg start) ∧
    (∀ (extent : Int) (neg : Bool) (stop : Option Int),
        adjustIndex extent neg stop (-1) extent false =
          specNormStop extent neg stop) ∧
    (∀ (extent stride : Int) (start stop step : Option Int),
        (sliceArray extent stride start stop step).newExtent =
          specNewExtent
            (specNormStart extent (decide (step.getD 1 < 0)) start)
            (specNormStop extent (decide (step.getD 1 < 0)) stop)
            (step.getD 1)) ∧
    adjustIndex 10 false (some (-3)) (10 - 1) 0 true = 7 ∧
    (sliceArray 10 8 (some (-3)) none (some 1)).newExtent = 3 ∧
    (sliceArray 5 8 (some 0) (some 5) (some (-1))).newExtent = 0 := by
  refine ⟨adjustIndex_start_eq, adjustIndex_stop_eq,
    sliceArray_newExtent_eq, by decide, by decide, by decide⟩

theorem getD_eq_getD_zero {l : List Int} {p : Nat} (h : p < l.length)
    (d : Int) : l.getD p d = l.getD p 0 := by
  simp [List.getD_eq_getElem?_getD, List.getElem?_eq_getElem h]

theorem getD_set_ne (l : List Int) {i j : Nat} (h : i ≠ j) (v d : Int) :
    (l.set i v).getD j d = l.getD j d := by
  simp [List.getD_eq_getElem?_getD, List.getElem?_set_ne h]

theorem getD_set_eq (l : List Int) {i : Nat} (h : i < l.length) (v d : Int) :
    (l.set i v).getD i d = v := by
  simp [List.getD_eq_getElem?_getD, List.getElem?_set_self, h]

theorem broadcastLoop_lengths (src : List Int) (off ndim : Nat)
    (dst strides : List Int) (i : Nat) :
    (broadcastLoop src off ndim dst strides i).2.1.length = dst.length ∧
    (broadcastLoop src off ndim dst strides i).2.2.length =
      strides.length := by
  induction dst, strides, i using broadcastLoop.induct src off ndim with
  | case1 dst strides i hi hsrc ih =>
      rw [broadcastLoop, if_pos hi, if_pos hsrc]
      simpa using ih
  | case2 dst strides i hi hsrc hdst ih =>
      rw [broadcastLoop, if_pos hi, if_neg hsrc, if_pos hdst]
      simpa using ih
  | case3 dst strides i hi hsrc hdst hne =>
      rw [broadcastLoop, if_pos hi, if_neg hsrc, if_neg hdst, if_pos hne]
      exact ⟨rfl, rfl⟩
  | case4 dst strides i hi hsrc hdst hne ih =>
      rw [broadcastLoop, if_pos hi, if_neg hsrc, if_neg hdst, if_neg hne]
      exact ih
  | case5 dst strides i hi =>
      rw [broadcastLoop, if_neg hi]
      exact ⟨rfl, rfl⟩

theorem broadcastLoop_retval (src : List Int) (off ndim : Nat)
    (dst strides : List Int) (i : Nat) :
    (broadcastLoop src off ndim dst strides i).1 = 0 ∨
    (broadcastLoop src off ndim dst strides i).1 = 1 := by
  induction dst, strides, i using broadcastLoop.induct src off ndim with
  | case1 dst strides i hi hsrc ih =>
      rw [broadcastLoop, if_pos hi, if_pos hsrc]; exact ih
  | case2 dst strides i hi hsrc hdst ih =>
      rw [broadcastLoop, if_pos hi, if_neg hsrc, if_pos hdst]; exact ih
  | case3 dst strides i hi hsrc hdst hne =>
      rw [broadcastLoop, if_pos hi, if_neg hsrc, if_neg hdst, if_pos hne]
      exact Or.inl rfl
  | case4 dst strides i hi hsrc hdst hne ih =>
      rw [broadcastLoop, if_pos hi, if_neg hsrc, if_neg hdst, if_neg hne]
      exact ih
  | case5 dst strides i hi =>
      rw [broadcastLoop, if_neg hi]; exact Or.inr rfl

theorem broadcastLoop_one_iff (src : List Int) (off ndim : Nat)
    (dst strides : List Int) (i : Nat) :
    (broadcastLoop src off ndim dst strides i).1 = 1 ↔
      ∀ j, i ≤ j → j < ndim →
        compatExt (src.getD j 0) (dst.getD (j + off) 0) := by
  induction dst, strides, i using broadcastLoop.induct src off ndim with
  | case1 dst strides i hi hsrc ih =>
      rw [broadcastLoop, if_pos hi, if_pos hsrc, ih]
      constructor
      · intro h j hij hj
        rcases Nat.eq_or_lt_of_le hij with rfl | hlt
        · exact Or.inl hsrc
        · exact h j hlt hj
      · intro h j hij hj
        exact h j (Nat.le_of_succ_le hij) hj
  | case2 dst strides i hi hsrc hdst ih =>
      rw [broadcastLoop, if_pos hi, if_neg hsrc, if_pos hdst, ih]
      constructor
      · intro h j hij hj
        rcases Nat.eq_or_lt_of_le hij with rfl | hlt
        · exact Or.inr (Or.inl hdst)
        · have := h j hlt hj
          rwa [getD_set_ne dst (by omega : i + off ≠ j + off)] at this
      · intro h j hij hj
        have := h j (Nat.le_of_succ_le hij) hj
        rwa [getD_set_ne dst (by omega : i + off ≠ j + off)]
  | case3 dst strides i hi hsrc hdst hne =>
      rw [broadcastLoop, if_pos hi, if_neg hsrc, if_neg hdst, if_pos hne]
      constructor
      · intro h; cases h
      · intro h
        rcases h i (Nat.le_refl i) hi with h1 | h1 | h1 <;> exact absurd h1 (by assumption)
  | case4 dst strides i hi hsrc hdst hne ih =>
      rw [broadcastLoop, if_pos hi, if_neg hsrc, if_neg hdst, if_neg hne, ih]
      constructor
      · intro h j hij hj
        rcases Nat.eq_or_lt_of_le hij with rfl | hlt
        · exact Or.inr (Or.inr (by simpa using hne))
        · exact h j hlt hj
      · intro h j hij hj
        exact h j (Nat.le_of_succ_le hij) hj
  | case5 dst strides i hi =>
      rw [broadcastLoop, if_neg hi]
      constructor
      · intro _ j hij hj
        omega
      · intro _; rfl

theorem broadcastLoop_strides_of_one (src : List Int) (off ndim : Nat)
    (dst strides : List Int) (i : Nat) :
    ndim ≤ strides.length →
    (broadcastLoop src off ndim dst strides i).1 = 1 →
    ∀ k d, (broadcastLoop src off ndim dst strides i).2.2.getD k d =
      if i ≤ k ∧ k < ndim ∧ src.getD k 0 = 1 then 0
      else strides.getD k d := by
  induction dst, strides, i using broadcastLoop.induct src off ndim with
  | case1 dst strides i hi hsrc ih =>
      rw [broadcastLoop, if_pos hi, if_pos hsrc]
      intro hlen h1 k d
      rw [ih (by simpa using hlen) h1 k d]
      by_cases hk : k = i
      · subst hk
        rw [if_neg (by omega), if_pos ⟨Nat.le_refl k, hi, hsrc⟩,
          getD_set_eq strides (by omega)]
      · rw [getD_set_ne strides (fun h => hk h.symm)]
        exact if_congr (by constructor <;> (rintro ⟨a, b⟩; exact ⟨by omega, b⟩))
          rfl rfl
  | case2 dst strides i hi hsrc hdst ih =>
      rw [broadcastLoop, if_pos hi, if_neg hsrc, if_pos hdst]
      intro hlen h1 k d
      rw [ih hlen h1 k d]
      refine if_congr ?_ rfl rfl
      constructor
      · rintro ⟨a, b, c⟩; exact ⟨by omega, b, c⟩
      · rintro ⟨a, b, c⟩
        rcases Nat.eq_or_lt_of_le a with rfl | hlt
        · exact absurd c hsrc
        · exact ⟨hlt, b, c⟩
  | case3 dst strides i hi hsrc hdst hne =>
      rw [broadcastLoop, if_pos hi, if_neg hsrc, if_neg hdst, if_pos hne]
      intro _ h1
      exact absurd h1 (by simp)
  | case4 dst strides i hi hsrc hdst hne ih =>
      rw [broadcastLoop, if_pos hi, if_neg hsrc, if_neg hdst, if_neg hne]
      intro hlen h1 k d
      rw [ih hlen h1 k d]
      refine if_congr ?_ rfl rfl
      constructor
      · rintro ⟨a, b, c⟩; exact ⟨by omega, b, c⟩
      · rintro ⟨a, b, c⟩
        rcases Nat.eq_or_lt_of_le a with rfl | hlt
        · exact absurd c hsrc
        · exact ⟨hlt, b, c⟩
  | case5 dst strides i hi =>
      rw [broadcastLoop, if_neg hi]
      intro _ _ k d
      rw [if_neg (by omega)]

theorem broadcastLoop_dst_of_one (src : List Int) (off ndim : Nat)
    (dst strides : List Int) (i : Nat) :
    ndim + off ≤ dst.length →
    (broadcastLoop src off ndim dst strides i).1 = 1 →
    ∀ p d, (broadcastLoop src off ndim dst strides i).2.1.getD p d =
      if i + off ≤ p ∧ p < ndim + off then
        combineExt (dst.getD p 0) (src.getD (p - off) 0)
      else dst.getD p d := by
  induction dst, strides, i using broadcastLoop.induct src off ndim with
  | case1 dst strides i hi hsrc ih =>
      rw [broadcastLoop, if_pos hi, if_pos hsrc]
      intro hlen h1 p d
      rw [ih hlen h1 p d]
      by_cases hp : p = i + off
      · subst hp
        rw [if_neg (by omega), if_pos ⟨Nat.le_refl _, by omega⟩]
        have hsrc' : src.getD (i + off - off) 0 = 1 := by
          simpa [Nat.add_sub_cancel] using hsrc
        rw [combineExt, if_pos hsrc']
        exact getD_eq_getD_zero (by omega) d
      · exact if_congr (by constructor <;> (rintro ⟨a, b⟩; exact ⟨by omega, b⟩))
          rfl rfl
  | case2 dst strides i hi hsrc hdst ih =>
      rw [broadcastLoop, if_pos hi, if_neg hsrc, if_pos hdst]
      intro hlen h1 p d
      rw [ih (by simpa using hlen) h1 p d]
      by_cases hp : p = i + off
      · subst hp
        rw [if_neg (by omega), if_pos ⟨Nat.le_refl _, by omega⟩,
          getD_set_eq dst (by omega)]
        have hsrc' : src.getD (i + off - off) 0 = src.getD i 0 := by
          simp [Nat.add_sub_cancel]
        rw [combineExt, hsrc', if_neg hsrc, if_pos hdst]
      · rw [getD_set_ne dst (fun h => hp h.symm),
          getD_set_ne dst (fun h => hp h.symm)]
        exact if_congr (by constructor <;> (rintro ⟨a, b⟩; exact ⟨by omega, b⟩))
          rfl rfl
  | case3 dst strides i hi hsrc hdst hne =>
      rw [broadcastLoop, if_pos hi, if_neg hsrc, if_neg hdst, if_pos hne]
      intro _ h1
      exact absurd h1 (by simp)
  | case4 dst strides i hi hsrc hdst hne ih =>
      rw [broadcastLoop, if_pos hi, if_neg hsrc, if_neg hdst, if_neg hne]
      intro hlen h1 p d
      rw [ih hlen h1 p d]
      by_cases hp : p = i + off
      · subst hp
        rw [if_neg (by omega), if_pos ⟨Nat.le_refl _, by omega⟩]
        have hsrc' : src.getD (i + off - off) 0 = src.getD i 0 := by
          simp [Nat.add_sub_cancel]
        rw [combineExt, hsrc', if_neg hsrc, if_neg hdst]
        exact getD_eq_getD_zero (by omega) d
      · exact if_congr (by constructor <;> (rintro ⟨a, b⟩; exact ⟨by omega, b⟩))
          rfl rfl
  | case5 dst strides i hi =>
      rw [broadcastLoop, if_neg hi]
      intro _ _ p d
      rw [if_neg (by omega)]

theorem broadcastLoop_zero (src : List Int) (off ndim : Nat)
    (dst strides : List Int) (i : Nat) :
    ndim ≤ strides.length → ndim + off ≤ dst.length →
    (broadcastLoop src off ndim dst strides i).1 = 0 →
    ∃ jb, i ≤ jb ∧ jb < ndim ∧
      ¬ compatExt (src.getD jb 0) (dst.getD (jb + off) 0) ∧
      (∀ j, i ≤ j → j < jb →
        compatExt (src.getD j 0) (dst.getD (j + off) 0)) ∧
      (∀ k d, (broadcastLoop src off ndim dst strides i).2.2.getD k d =
        if i ≤ k ∧ k < jb ∧ src.getD k 0 = 1 then 0
        else strides.getD k d) ∧
      (∀ p d, (broadcastLoop src off ndim dst strides i).2.1.getD p d =
        if i + off ≤ p ∧ p < jb + off then
          combineExt (dst.getD p 0) (src.getD (p - off) 0)
        else dst.getD p d) := by
  induction dst, strides, i using broadcastLoop.induct src off ndim with
  | case1 dst strides i hi hsrc ih =>
      rw [broadcastLoop, if_pos hi, if_pos hsrc]
      intro hs hd h0
      obtain ⟨jb, hjb1, hjb2, hbad, hpre, hstr, hdst'⟩ :=
        ih (by simpa using hs) hd h0
      refine ⟨jb, by omega, hjb2, hbad, ?_, ?_, ?_⟩
      · intro j hij hj
        rcases Nat.eq_or_lt_of_le hij with rfl | hlt
        · exact Or.inl hsrc
        · exact hpre j hlt hj
      · intro k d
        rw [hstr k d]
        by_cases hk : k = i
        · subst hk
          rw [if_neg (by omega), if_pos ⟨Nat.le_refl _, by omega, hsrc⟩,
            getD_set_eq strides (by omega)]
        · rw [getD_set_ne strides (fun h => hk h.symm)]
          exact if_congr
            (by constructor <;> (rintro ⟨a, b⟩; exact ⟨by omega, b⟩)) rfl rfl
      · intro p d
        rw [hdst' p d]
        by_cases hp : p = i + off
        · subst hp
          rw [if_neg (by omega), if_pos ⟨Nat.le_refl _, by omega⟩]
          have hsrc' : src.getD (i + off - off) 0 = 1 := by
            simpa [Nat.add_sub_cancel] using hsrc
          rw [combineExt, if_pos hsrc']
          exact getD_eq_getD_zero (by omega) d
        · exact if_congr
            (by constructor <;> (rintro ⟨a, b⟩; exact ⟨by omega, b⟩)) rfl rfl
  | case2 dst strides i hi hsrc hdst ih =>
      rw [broadcastLoop, if_pos hi, if_neg hsrc, if_pos hdst]
      intro hs hd h0
      obtain ⟨jb, hjb1, hjb2, hbad, hpre, hstr, hdst'⟩ :=
        ih hs (by simpa using hd) h0
      refine ⟨jb, by omega, hjb2, ?_, ?_, ?_, ?_⟩
      · rwa [getD_set_ne dst (by omega : i + off ≠ jb + off)] at hbad
      · intro j hij hj
        rcases Nat.eq_or_lt_of_le hij with rfl | hlt
        · exact Or.inr (Or.inl hdst)
        · have := hpre j hlt hj
          rwa [getD_set_ne dst (by omega : i + off ≠ j + off)] at this
      · intro k d
        rw [hstr k d]
        exact if_congr (by
          constructor
          · rintro ⟨a, b, c⟩; exact ⟨by omega, b, c⟩
          · rintro ⟨a, b, c⟩
            rcases Nat.eq_or_lt_of_le a with rfl | hlt
            · exact absurd c hsrc
            · exact ⟨hlt, b, c⟩) rfl rfl
      · intro p d
        rw [hdst' p d]
        by_cases hp : p = i + off
        · subst hp
          rw [if_neg (by omega), if_pos ⟨Nat.le_refl _, by omega⟩,
            getD_set_eq dst (by omega)]
          have hsrc' : src.getD (i + off - off) 0 = src.getD i 0 := by
            simp [Nat.add_sub_cancel]
          rw [combineExt, hsrc', if_neg hsrc, if_pos hdst]
        · rw [getD_set_ne dst (fun h => hp h.symm),
            getD_set_ne dst (fun h => hp h.symm)]
          exact if_congr
            (by constructor <;> (rintro ⟨a, b⟩; exact ⟨by omega, b⟩)) rfl rfl
  | case3 dst strides i hi hsrc hdst hne =>
      rw [broadcastLoop, if_pos hi, if_neg hsrc, if_neg hdst, if_pos hne]
      intro _ _ _
      refine ⟨i, Nat.le_refl i, hi, ?_, by omega, ?_, ?_⟩
      · rintro (h | h | h)
        · exact hsrc h
        · exact hdst h
        · exact hne h
      · intro k d
        rw [if_neg (by omega)]
      · intro p d
        rw [if_neg (by omega)]
  | case4 dst strides i hi hsrc hdst hne ih =>
      rw [broadcastLoop, if_pos hi, if_neg hsrc, if_neg hdst, if_neg hne]
      intro hs hd h0
      obtain ⟨jb, hjb1, hjb2, hbad, hpre, hstr, hdst'⟩ := ih hs hd h0
      refine ⟨jb, by omega, hjb2, hbad, ?_, ?_, ?_⟩
      · intro j hij hj
        rcases Nat.eq_or_lt_of_le hij with rfl | hlt
        · exact Or.inr (Or.inr (by simpa using hne))
        · exact hpre j hlt hj
      · intro k d
        rw [hstr k d]
        exact if_congr (by
          constructor
          · rintro ⟨a, b, c⟩; exact ⟨by omega, b, c⟩
          · rintro ⟨a, b, c⟩
            rcases Nat.eq_or_lt_of_le a with rfl | hlt
            · exact absurd c hsrc
            · exact ⟨hlt, b, c⟩) rfl rfl
      · intro p d
        rw [hdst' p d]
        by_cases hp : p = i + off
        · subst hp
          rw [if_neg (by omega), if_pos ⟨Nat.le_refl _, by omega⟩]
          have hsrc' : src.getD (i + off - off) 0 = src.getD i 0 := by
            simp [Nat.add_sub_cancel]
          rw [combineExt, hsrc', if_neg hsrc, if_neg hdst]
          exact getD_eq_getD_zero (by omega) d
        · exact if_congr
            (by constructor <;> (rintro ⟨a, b⟩; exact ⟨by omega, b⟩)) rfl rfl
  | case5 dst strides i hi =>
      rw [broadcastLoop, if_neg hi]
      intro _ _ h0
      exact absurd h0 (by simp)

theorem broadcastBody_one_iff (dst : List Int) (op : Operand) (maxN : Nat)
    (hle : op.shape.length ≤ maxN) (hdst : dst.length = maxN) :
    (broadcastBody dst op.shape op.strides maxN op.shape.length).1 = 1 ↔
      ∀ j < maxN, compatExt (extAt maxN op j) (dst.getD j 0) := by
  rw [broadcastBody, broadcastLoop_one_iff]
  constructor
  · intro h j hj
    by_cases hoff : maxN - op.shape.length ≤ j
    · have h1 := h (j - (maxN - op.shape.length)) (Nat.zero_le _) (by omega)
      rw [extAt, if_pos hoff]
      have he : j - (maxN - op.shape.length) + (maxN - op.shape.length) = j :=
        by omega
      rwa [he] at h1
    · rw [extAt, if_neg hoff]
      exact Or.inl rfl
  · intro h j' _ hj'
    have h1 := h (j' + (maxN - op.shape.length)) (by omega)
    rw [extAt, if_pos (by omega)] at h1
    have he : j' + (maxN - op.shape.length) - (maxN - op.shape.length) = j' :=
      by omega
    rwa [he] at h1

theorem broadcastBody_lengths (dst src strides : List Int)
    (maxN ndim : Nat) :
    (broadcastBody dst src strides maxN ndim).2.1.length = dst.length ∧
    (broadcastBody dst src strides maxN ndim).2.2.length =
      strides.length :=
  broadcastLoop_lengths src (maxN - ndim) ndim dst strides 0

theorem broadcastBody_dst_of_one (dst : List Int) (op : Operand)
    (maxN : Nat) (hle : op.shape.length ≤ maxN) (hdst : dst.length = maxN)
    (h1 : (broadcastBody dst op.shape op.strides maxN
        op.shape.length).1 = 1) :
    ∀ j < maxN,
      (broadcastBody dst op.shape op.strides maxN
          op.shape.length).2.1.getD j 0 =
        combineExt (dst.getD j 0) (extAt maxN op j) := by
  intro j hj
  rw [broadcastBody] at h1 ⊢
  rw [broadcastLoop_dst_of_one _ _ _ _ _ _ (by omega) h1 j 0]
  by_cases hoff : maxN - op.shape.length ≤ j
  · rw [if_pos ⟨by omega, by omega⟩, extAt, if_pos hoff]
  · rw [if_neg (by omega), extAt, if_neg hoff, combineExt, if_pos rfl]

theorem broadcastBody_strides_of_one (dst : List Int) (op : Operand)
    (maxN : Nat) (hst : op.shape.length ≤ op.strides.length)
    (h1 : (broadcastBody dst op.shape op.strides maxN
        op.shape.length).1 = 1) :
    ∀ k < op.shape.length,
      (broadcastBody dst op.shape op.strides maxN
          op.shape.length).2.2.getD k 0 =
        if op.shape.getD k 0 = 1 then 0 else op.strides.getD k 0 := by
  intro k hk
  rw [broadcastBody] at h1 ⊢
  rw [broadcastLoop_strides_of_one _ _ _ _ _ _ hst h1 k 0]
  by_cases h : op.shape.getD k 0 = 1
  · rw [if_pos ⟨Nat.zero_le _, hk, h⟩, if_pos h]
  · rw [if_neg (fun hc => h hc.2.2), if_neg h]

theorem combineExt_cases (d s : Int) :
    combineExt d s = d ∨ combineExt d s = s := by
  rw [combineExt]; split_ifs <;> simp

theorem eq_combineExt_of_ne_one {d s x : Int} (hc : compatExt s d)
    (hx : x ≠ 1) (hmem : x = d ∨ x = s) : x = combineExt d s := by
  rw [combineExt]
  rcases hmem with rfl | rfl
  · split_ifs <;> rfl
  · split_ifs with h1 h2
    · exact absurd h1 hx
    · rfl
    · rcases hc with h | h | h
      · exact absurd h hx
      · exact absurd h h2
      · exact h

theorem chainOK_iff (d : Int) (ss : List Int) :
    chainOK d ss ↔ agreeNonOne (d :: ss) := by
  induction ss generalizing d with
  | nil => simp [chainOK, agreeNonOne]
  | cons s rest ih =>
      simp only [chainOK]
      rw [ih]
      constructor
      · rintro ⟨hc, hagr⟩ a ha b hb ha1 hb1
        simp only [List.mem_cons] at ha hb
        have key : ∀ x, x = d ∨ x = s → x ≠ 1 → x = combineExt d s := by
          intro x hx hx1
          exact eq_combineExt_of_ne_one hc hx1 hx
        rcases ha with rfl | rfl | ha <;> rcases hb with rfl | rfl | hb
        · rfl
        · exact (key _ (Or.inl rfl) ha1).trans (key _ (Or.inr rfl) hb1).symm
        · have hac := key _ (Or.inl rfl) ha1
          exact hac.trans (hagr _ (List.mem_cons_self _ _) b
            (List.mem_cons_of_mem _ hb) (hac ▸ ha1) hb1)
        · exact (key _ (Or.inr rfl) ha1).trans (key _ (Or.inl rfl) hb1).symm
        · rfl
        · have hac := key _ (Or.inr rfl) ha1
          exact hac.trans (hagr _ (List.mem_cons_self _ _) b
            (List.mem_cons_of_mem _ hb) (hac ▸ ha1) hb1)
        · have hbc := key _ (Or.inl rfl) hb1
          exact (hagr a (List.mem_cons_of_mem _ ha) _ (List.mem_cons_self _ _)
            ha1 (hbc ▸ hb1)).trans hbc.symm
        · have hbc := key _ (Or.inr rfl) hb1
          exact (hagr a (List.mem_cons_of_mem _ ha) _ (List.mem_cons_self _ _)
            ha1 (hbc ▸ hb1)).trans hbc.symm
        · exact hagr a (List.mem_cons_of_mem _ ha) b
            (List.mem_cons_of_mem _ hb) ha1 hb1
      · intro hagr
        have hds : ∀ x, x = d ∨ x = s → x ∈ d :: s :: rest := by
          rintro x (rfl | rfl)
          · exact List.mem_cons_self _ _
          · exact List.mem_cons_of_mem _ (List.mem_cons_self _ _)
        constructor
        · by_cases hs1 : s = 1
          · exact Or.inl hs1
          · by_cases hd1 : d = 1
            · exact Or.inr (Or.inl hd1)
            · exact Or.inr (Or.inr
                (hagr s (hds s (Or.inr rfl)) d (hds d (Or.inl rfl)) hs1 hd1))
        · intro a ha b hb ha1 hb1
          simp only [List.mem_cons] at ha hb
          have hmem : ∀ x, x = combineExt d s ∨ x ∈ rest →
              x ∈ d :: s :: rest := by
            rintro x (rfl | hx)
            · rcases combineExt_cases d s with hc' | hc'
              · rw [hc']; exact List.mem_cons_self _ _
              · rw [hc']
                exact List.mem_cons_of_mem _ (List.mem_cons_self _ _)
            · exact List.mem_cons_of_mem _ (List.mem_cons_of_mem _ hx)
          exact hagr a (hmem a ha) b (hmem b hb) ha1 hb1

theorem getD_replicate_one {n j : Nat} (h : j < n) :
    (List.replicate n (1 : Int)).getD j 0 = 1 := by
  simp [List.getD_eq_getElem?_getD, List.getElem?_replicate, h]

theorem visitLoop_ok_iff (maxN : Nat) (ops : List Operand) :
    ∀ (dst : List Int), dst.length = maxN →
      (∀ op ∈ ops, op.shape.length ≤ maxN) →
      ((∀ r ∈ (visitBroadcastLoop maxN dst ops).1, r ≠ 0) ↔
        ∀ j < maxN, chainOK (dst.getD j 0)
          (ops.map (fun op => extAt maxN op j))) := by
  induction ops with
  | nil =>
      intro dst _ _
      simp [visitBroadcastLoop, chainOK]
  | cons op rest ih =>
      intro dst hdst hops
      have hle : op.shape.length ≤ maxN := hops op (List.mem_cons_self _ _)
      have hrest : ∀ o ∈ rest, o.shape.length ≤ maxN :=
        fun o ho => hops o (List.mem_cons_of_mem _ ho)
      simp only [visitBroadcastLoop, List.map_cons, chainOK]
      rw [List.forall_mem_cons]
      rcases broadcastLoop_retval op.shape (maxN - op.shape.length)
          op.shape.length dst op.strides 0 with h0 | h1
      · have hne : ¬ ∀ j < maxN,
            compatExt (extAt maxN op j) (dst.getD j 0) := by
          intro hall
          have h1 := (broadcastBody_one_iff dst op maxN hle hdst).mpr hall
          rw [broadcastBody] at h1
          omega
        constructor
        · rintro ⟨hhead, _⟩
          exact absurd (by rw [broadcastBody]; exact h0) hhead
        · intro hall
          exfalso
          exact hne fun j hj => (hall j hj).1
      · have h1' : (broadcastBody dst op.shape op.strides maxN
            op.shape.length).1 = 1 := by rw [broadcastBody]; exact h1
        have hcompat := (broadcastBody_one_iff dst op maxN hle hdst).mp h1'
        have hlen : (broadcastBody dst op.shape op.strides maxN
            op.shape.length).2.1.length = maxN := by
          rw [(broadcastBody_lengths dst op.shape op.strides maxN
            op.shape.length).1, hdst]
        have hIH := ih _ hlen hrest
        have hdst' := broadcastBody_dst_of_one dst op maxN hle hdst h1'
        constructor
        · rintro ⟨_, htail⟩ j hj
          refine ⟨hcompat j hj, ?_⟩
          have hc := (hIH.mp htail) j hj
          rwa [hdst' j hj] at hc
        · intro hall
          refine ⟨by rw [h1']; exact one_ne_zero, ?_⟩
          apply hIH.mpr
          intro j hj
          rw [hdst' j hj]
          exact (hall j hj).2

theorem agreeNonOne_cons_one (l : List Int) :
    agreeNonOne (1 :: l) ↔ agreeNonOne l := by
  constructor
  · intro h a ha b hb ha1 hb1
    exact h a (List.mem_cons_of_mem _ ha) b (List.mem_cons_of_mem _ hb)
      ha1 hb1
  · intro h a ha b hb ha1 hb1
    rcases List.mem_cons.mp ha with rfl | ha'
    · exact absurd rfl ha1
    · rcases List.mem_cons.mp hb with rfl | hb'
      · exact absurd rfl hb1
      · exact h a ha' b hb' ha1 hb1

theorem agreeNonOne_map_iff (maxN : Nat) (ops : List Operand) (j : Nat) :
    agreeNonOne (ops.map (fun op => extAt maxN op j)) ↔
      ∀ a ∈ ops, ∀ b ∈ ops, extAt maxN a j ≠ 1 → extAt maxN b j ≠ 1 →
        extAt maxN a j = extAt maxN b j := by
  constructor
  · intro h a ha b hb
    exact h _ (List.mem_map_of_mem _ ha) _ (List.mem_map_of_mem _ hb)
  · rintro h x hx y hy hx1 hy1
    obtain ⟨a, ha, rfl⟩ := List.mem_map.mp hx
    obtain ⟨b, hb, rfl⟩ := List.mem_map.mp hy
    exact h a ha b hb hx1 hy1

theorem visitNode_ok_iff (maxN : Nat) (ops : List Operand)
    (hops : ∀ op ∈ ops, op.shape.length ≤ maxN) :
    (∀ r ∈ (visitBroadcastNode maxN ops).1, r ≠ 0) ↔
      noConflict maxN ops := by
  rw [visitBroadcastNode,
    visitLoop_ok_iff maxN ops _ (List.length_replicate _ _) hops]
  unfold noConflict
  constructor
  · intro h j hj
    have hc := h j hj
    rw [getD_replicate_one hj, chainOK_iff, agreeNonOne_cons_one,
      agreeNonOne_map_iff] at hc
    exact hc
  · intro h j hj
    rw [getD_replicate_one hj, chainOK_iff, agreeNonOne_cons_one,
      agreeNonOne_map_iff]
    exact h j hj

theorem raised_of_retval_zero (l : List Int) (h : ∃ r ∈ l, r = 0) :
    (l.filterMap checkBroadcastError).head? =
      some ⟨"ValueError", "Shape mismatch while broadcasting"⟩ := by
  induction l with
  | nil =>
      obtain ⟨r, hr, _⟩ := h
      cases hr
  | cons x xs ih =>
      obtain ⟨r, hr, rfl⟩ := h
      rcases List.mem_cons.mp hr with rfl | hr'
      · simp [List.filterMap_cons, checkBroadcastError]
      · by_cases hx : x = 0
        · subst hx
          simp [List.filterMap_cons, checkBroadcastError]
        · simp only [List.filterMap_cons, checkBroadcastError, if_neg hx]
          exact ih ⟨0, hr', rfl⟩

/-- Claim C2 (failing input): slicing axis extent 10, stride 8 with
`start=3, stop=4, step=1` produces new extent 1, and because the code
zeroes the (local) stride for the broadcastable case before computing
`data[start * stride:]`, the resulting data offset is `3 * 0 = 0` rather
than `start * original_stride = 24`; the stored stride is 0 as claimed. -/
theorem slice_axis_unit_extent_zero_offset :
    sliceArray 10 8 (some 3) (some 4) (some 1) =
      { dataOffset := 0, newExtent := 1, newStride := 0 } ∧
    (3 : Int) * 8 = 24 := by
  constructor
  · rfl
  · norm_num

/-- Claim C4: broadcasting over a destination shape initialized to all
ones processes each array operand per axis, offset by `max_ndim -
operand_ndim` into the destination: an operand extent of 1 zeroes that
operand's stride at the axis; otherwise a destination extent of 1 is
replaced by the operand's extent; otherwise differing extents make the
broadcast fail (the call returns 1 exactly when every axis is
compatible); the whole broadcast succeeds iff no destination axis
receives two differing non-1 extents; and operand shapes (1,3) and
(4,1) broadcast to destination shape (4,3) with the size-1 axes'
strides zeroed. -/
theorem broadcast_per_axis_and_success :
    (∀ (dst : List Int) (op : Operand) (maxN : Nat),
        op.shape.length ≤ maxN → dst.length = maxN →
        op.shape.length ≤ op.strides.length →
        (broadcastBody dst op.shape op.strides maxN op.shape.length).1 = 1 →
        (∀ k < op.shape.length,
          (broadcastBody dst op.shape op.strides maxN
              op.shape.length).2.2.getD k 0 =
            if op.shape.getD k 0 = 1 then 0 else op.strides.getD k 0) ∧
        (∀ j < maxN,
          (broadcastBody dst op.shape op.strides maxN
              op.shape.length).2.1.getD j 0 =
            combineExt (dst.getD j 0) (extAt maxN op j))) ∧
    (∀ (dst : List Int) (op : Operand) (maxN : Nat),
        op.shape.length ≤ maxN → dst.length = maxN →
        ((broadcastBody dst op.shape op.strides maxN
            op.shape.length).1 = 1 ↔
          ∀ j < maxN, compatExt (extAt maxN op j) (dst.getD j 0))) ∧
    (∀ (maxN : Nat) (ops : List Operand),
        (∀ op ∈ ops, op.shape.length ≤ maxN) →
        ((∀ r ∈ (visitBroadcastNode maxN ops).1, r ≠ 0) ↔
          noConflict maxN ops)) ∧
    visitBroadcastNode 2 [⟨[1, 3], [24, 8]⟩, ⟨[4, 1], [8, 8]⟩] =
      ([1, 1], [4, 3], [[0, 8], [8, 0]]) := by
  refine ⟨?_, ?_, ?_, by
    simp [visitBroadcastNode, visitBroadcastLoop, broadcastBody,
      broadcastLoop]⟩
  · intro dst op maxN hle hdst hst h1
    exact ⟨broadcastBody_strides_of_one dst op maxN hst h1,
      broadcastBody_dst_of_one dst op maxN hle hdst h1⟩
  · intro dst op maxN hle hdst
    exact broadcastBody_one_iff dst op maxN hle hdst
  · intro maxN ops hops
    exact visitNode_ok_iff maxN ops hops

/-- Witness for C4: the success-iff-no-conflict equivalence applied to
the concrete operands (1,3) and (4,1), with the length side conditions
discharged by evaluation. -/
theorem broadcast_per_axis_and_success_witness :
    (∀ op ∈ ([⟨[1, 3], [24, 8]⟩, ⟨[4, 1], [8, 8]⟩] : List Operand),
      op.shape.length ≤ 2) ∧
    ((∀ r ∈ (visitBroadcastNode 2
        [⟨[1, 3], [24, 8]⟩, ⟨[4, 1], [8, 8]⟩]).1, r ≠ 0) ↔
      noConflict 2 [⟨[1, 3], [24, 8]⟩, ⟨[4, 1], [8, 8]⟩]) :=
  ⟨by decide, broadcast_per_axis_and_success.2.2.1 2
    [⟨[1, 3], [24, 8]⟩, ⟨[4, 1], [8, 8]⟩] (by decide)⟩

/-- Claim C5 (counterexample): the error raised on a broadcast shape
mismatch does not carry the mismatched axis or the conflicting extents.
Broadcasting shapes (3,) against (4,), (3,) against (7,) and (5,)
against (9,) all raise the identical error value, the `ValueError` with
the fixed message "Shape mismatch while broadcasting"; an error carrying
both conflicting extents would differ between these runs. -/
theorem broadcast_error_carries_no_extents :
    broadcastRaised 1 [⟨[3], [8]⟩, ⟨[4], [8]⟩] =
      some ⟨"ValueError", "Shape mismatch while broadcasting"⟩ ∧
    broadcastRaised 1 [⟨[3], [8]⟩, ⟨[4], [8]⟩] =
      broadcastRaised 1 [⟨[3], [8]⟩, ⟨[7], [8]⟩] ∧
    broadcastRaised 1 [⟨[5], [8]⟩, ⟨[9], [8]⟩] =
      broadcastRaised 1 [⟨[3], [8]⟩, ⟨[4], [8]⟩] := by
  refine ⟨?_, ?_, ?_⟩ <;>
    simp [broadcastRaised, visitBroadcastNode, visitBroadcastLoop, broadcastBody,
      broadcastLoop, checkBroadcastError]

/-- Claim C5 (amended): whenever broadcasting fails because two extents
differ at some axis, the routine returns the failure code 0 and the
error raised to the user is a `ValueError` with the fixed message
"Shape mismatch while broadcasting", which carries neither the
mismatched axis index nor the conflicting extents; in particular,
broadcasting shapes (3,) and (4,) raises exactly that error. -/
theorem broadcast_failure_raises_fixed_valueerror :
    (∀ (maxN : Nat) (ops : List Operand),
        (∀ op ∈ ops, op.shape.length ≤ maxN) →
        ¬ noConflict maxN ops →
        broadcastRaised maxN ops =
          some ⟨"ValueError", "Shape mismatch while broadcasting"⟩) ∧
    broadcastRaised 1 [⟨[3], [8]⟩, ⟨[4], [8]⟩] =
      some ⟨"ValueError", "Shape mismatch while broadcasting"⟩ := by
  constructor
  · intro maxN ops hops hnc
    have hiff := visitNode_ok_iff maxN ops hops
    have hex : ∃ r ∈ (visitBroadcastNode maxN ops).1, r = 0 := by
      by_contra hno
      push_neg at hno
      exact hnc (hiff.mp hno)
    exact raised_of_retval_zero _ hex
  · simp [broadcastRaised, visitBroadcastNode, visitBroadcastLoop, broadcastBody,
      broadcastLoop, checkBroadcastError]

/-- Witness for C5: the amended statement applied to the concrete
mismatching shapes (3,) and (4,). -/
theorem broadcast_failure_raises_fixed_valueerror_witness :
    (¬ noConflict 1 [⟨[3], [8]⟩, ⟨[4], [8]⟩]) ∧
    broadcastRaised 1 [⟨[3], [8]⟩, ⟨[4], [8]⟩] =
      some ⟨"ValueError", "Shape mismatch while broadcasting"⟩ :=
  ⟨by decide, broadcast_failure_raises_fixed_valueerror.1 1
    [⟨[3], [8]⟩, ⟨[4], [8]⟩] (by decide) (by decide)⟩

/-- Claim C9: broadcasting mutates its descriptors in place and is not
atomic on error: when the per-operand broadcast call fails, there is a
first mismatching axis `i` (incompatible with the destination extents
as they were on entry, all earlier axes being compatible) at which the
routine returns 0 immediately, and the returned descriptors retain
every update already applied for axes before `i` — the operand's
strides are zeroed at its extent-1 axes below `i` and the destination
shape entries below `i + dim_offset` hold the adopted extents — while
axes at and after `i` are untouched, with no rollback. -/
theorem broadcast_failure_partial_updates_retained :
    ∀ (dst : List Int) (op : Operand) (maxN : Nat),
      op.shape.length ≤ maxN → dst.length = maxN →
      op.strides.length = op.shape.length →
      (broadcastBody dst op.shape op.strides maxN op.shape.length).1 = 0 →
      ∃ i < op.shape.length,
        ¬ compatExt (op.shape.getD i 0)
            (dst.getD (i + (maxN - op.shape.length)) 0) ∧
        (∀ j < i, compatExt (op.shape.getD j 0)
            (dst.getD (j + (maxN - op.shape.length)) 0)) ∧
        (∀ (k : Nat) (d : Int),
          (broadcastBody dst op.shape op.strides maxN
              op.shape.length).2.2.getD k d =
            if k < i ∧ op.shape.getD k 0 = 1 then 0
            else op.strides.getD k d) ∧
        (∀ (p : Nat) (d : Int),
          (broadcastBody dst op.shape op.strides maxN
              op.shape.length).2.1.getD p d =
            if maxN - op.shape.length ≤ p ∧
                p < i + (maxN - op.shape.length) then
              combineExt (dst.getD p 0)
                (op.shape.getD (p - (maxN - op.shape.length)) 0)
            else dst.getD p d) := by
  intro dst op maxN h1 h2 h3 h0
  rw [broadcastBody] at h0
  obtain ⟨jb, _, hjb2, hbad, hpre, hstr, hdst⟩ :=
    broadcastLoop_zero op.shape (maxN - op.shape.length) op.shape.length
      dst op.strides 0 (by omega) (by omega) h0
  refine ⟨jb, hjb2, hbad, fun j hj => hpre j (Nat.zero_le _) hj, ?_, ?_⟩
  · intro k d
    rw [broadcastBody, hstr k d]
    exact if_congr
      (by constructor
          · rintro ⟨_, b, c⟩; exact ⟨b, c⟩
          · rintro ⟨b, c⟩; exact ⟨Nat.zero_le _, b, c⟩) rfl rfl
  · intro p d
    rw [broadcastBody, hdst p d]
    exact if_congr
      (by constructor <;> (rintro ⟨a, b⟩; exact ⟨by omega, by omega⟩))
      rfl rfl

/-- Witness for C9: broadcasting operand shape (3,4) into destination
shape [1,5] (as left by an earlier operand) fails at axis 1 after axis
0 already adopted extent 3; the theorem applies with all hypotheses
discharged by evaluation. -/
theorem broadcast_failure_partial_updates_retained_witness :
    ((broadcastBody [1, 5] [3, 4] [8, 8] 2 2).1 = 0) ∧
    (∃ i < ([3, 4] : List Int).length,
      ¬ compatExt (([3, 4] : List Int).getD i 0)
          (([1, 5] : List Int).getD (i + (2 - ([3, 4] : List Int).length)) 0) ∧
      (∀ j < i, compatExt (([3, 4] : List Int).getD j 0)
          (([1, 5] : List Int).getD (j + (2 - ([3, 4] : List Int).length)) 0)) ∧
      (∀ (k : Nat) (d : Int),
        (broadcastBody [1, 5] [3, 4] [8, 8] 2 2).2.2.getD k d =
          if k < i ∧ ([3, 4] : List Int).getD k 0 = 1 then 0
          else ([8, 8] : List Int).getD k d) ∧
      (∀ (p : Nat) (d : Int),
        (broadcastBody [1, 5] [3, 4] [8, 8] 2 2).2.1.getD p d =
          if 2 - ([3, 4] : List Int).length ≤ p ∧
              p < i + (2 - ([3, 4] : List Int).length) then
            combineExt (([1, 5] : List Int).getD p 0)
              (([3, 4] : List Int).getD (p - (2 - ([3, 4] : List Int).length)) 0)
          else ([1, 5] : List Int).getD p d)) :=
  ⟨by simp [broadcastBody, broadcastLoop],
    broadcast_failure_partial_updates_retained
      [1, 5] ⟨[3, 4], [8, 8]⟩ 2 (by decide) (by decide) (by decide)
      (by simp [broadcastBody, broadcastLoop])⟩

end ArraySlicing

namespace PyApi

theorem foldl_or_eq_any (elems : List (NativeValue α σ)) (b : Bool) :
    elems.foldl (fun acc e => acc || e.is_error) b =
      (b || elems.any (·.is_error)) := by
  induction elems generalizing b with
  | nil => simp
  | cons e rest ih =>
      rw [List.foldl_cons, ih, List.any_cons]
      cases b <;> cases e.is_error <;> simp

theorem foldl_append_trace (ts : List Nat) (st : List Nat) :
    (ts.map (fun t => fun st => st ++ [t])).foldl
        (fun st (f : List Nat → List Nat) => f st) st = st ++ ts := by
  induction ts generalizing st with
  | nil => simp
  | cons t rest ih =>
      rw [List.map_cons, List.foldl_cons, ih]
      simp

theorem filterMap_taggedChild (specs : List (α × Bool × Option Nat)) :
    (specs.map (fun s => taggedChild s.1 s.2.1 s.2.2)).filterMap
        (fun e => e.cleanup) =
      (specs.filterMap (fun s => s.2.2)).map
        (fun t => fun st => st ++ [t]) := by
  induction specs with
  | nil => rfl
  | cons sp rest ih =>
      rcases sp with ⟨v, err, tag⟩
      cases tag <;> (simp [taggedChild, List.filterMap_cons] at ih ⊢ ; exact ih)

/-- Claim C6: the tuple conversion's error flag is the logical OR of
all element conversions' error flags; the combined cleanup is present
iff at least one element produced a cleanup; when present it invokes
every element cleanup exactly once in reverse of the elements'
conversion order (the observed trace is exactly the reversed list of
the cleanup-bearing elements' tags); and in the concrete scenario where
element 2 of 3 fails (elements 0 and 1 succeeding with cleanups), the
error flag is set, the cleanups of elements 0 and 1 still run (trace
`[1, 0]`), no cleanup of element 2 runs, and the erroneous aggregate is
flagged so element 2's invalid value is not relied upon. -/
theorem to_native_tuple_error_or_and_reverse_cleanup :
    (∀ (α σ : Type) (elems : List (NativeValue α σ)),
        (to_native_tuple elems).is_error = elems.any (·.is_error)) ∧
    (∀ (α σ : Type) (elems : List (NativeValue α σ)),
        (to_native_tuple elems).cleanup.isSome ↔
          ∃ e ∈ elems, e.cleanup.isSome) ∧
    (∀ (α : Type) (specs : List (α × Bool × Option Nat)) (st : List Nat),
        runCleanup
          (to_native_tuple
            (specs.map (fun s => taggedChild s.1 s.2.1 s.2.2))).cleanup st =
          st ++ (specs.filterMap (fun s => s.2.2)).reverse) ∧
    ((to_native_tuple [taggedChild (10 : Nat) false (some 0),
        taggedChild 11 false (some 1),
        taggedChild 12 true none]).is_error = true ∧
      runCleanup (to_native_tuple [taggedChild (10 : Nat) false (some 0),
        taggedChild 11 false (some 1),
        taggedChild 12 true none]).cleanup [] = [1, 0] ∧
      (to_native_tuple [taggedChild (10 : Nat) false (some 0),
        taggedChild 11 false (some 1),
        taggedChild 12 true none]).value = [10, 11, 12]) := by
  refine ⟨?_, ?_, ?_, by constructor; rfl; constructor; rfl; rfl⟩
  · intro α σ elems
    rw [to_native_tuple]
    simpa using foldl_or_eq_any elems false
  · intro α σ elems
    rw [to_native_tuple]
    constructor
    · intro h
      by_cases hemp : (elems.filterMap (fun e => e.cleanup)).isEmpty
      · rw [if_pos hemp] at h
        cases h
      · rw [List.isEmpty_iff] at hemp
        obtain ⟨f, hf⟩ := List.exists_mem_of_ne_nil _ hemp
        obtain ⟨e, he, hfe⟩ := List.mem_filterMap.mp hf
        exact ⟨e, he, by rw [hfe]; rfl⟩
    · rintro ⟨e, he, hsome⟩
      rw [if_neg, Option.isSome_some]
      intro hemp
      rw [List.isEmpty_iff, List.filterMap_eq_nil_iff] at hemp
      obtain ⟨f, hf⟩ := Option.isSome_iff_exists.mp hsome
      exact Option.some_ne_none f (hf ▸ hemp e he ▸ rfl)
  · intro α specs st
    rw [to_native_tuple]
    simp only [filterMap_taggedChild]
    by_cases hnil : specs.filterMap (fun s => s.2.2) = []
    · rw [hnil]
      simp [runCleanup]
    · have hne : ¬ ((specs.filterMap (fun s => s.2.2)).map
          (fun t => fun st : List Nat => st ++ [t])).isEmpty = true := by
        rw [List.isEmpty_iff]
        intro h
        exact hnil (List.map_eq_nil_iff.mp h)
      rw [if_neg hne]
      simp only [runCleanup]
      rw [← List.map_reverse, foldl_append_trace]

/-- Claim C7: converting the none singleton to `Optional(T)` yields the
representation-level absent value, leaves the runtime state untouched
(for every possible conversion effect, so `T`'s conversion is never
invoked) and its cleanup is the identity on every state (so `T`'s
cleanup is never invoked); converting any other object fully delegates
to `T`'s path: the value is `T`'s value wrapped as present, the error
flag is `T`'s error flag, the state effect is `T`'s effect, and the
cleanup (when `T` has one) runs exactly `T`'s cleanup. -/
theorem to_native_optional_branch_exclusivity :
    ∀ (Obj α σ : Type) [DecidableEq Obj] (noneObj : Obj)
      (inner : InnerConv Obj α σ) (obj : Obj) (st : σ),
      (obj = noneObj →
        (to_native_optional noneObj inner obj st).1.value = none ∧
        (to_native_optional noneObj inner obj st).2 = st ∧
        (∀ t, runCleanup
          (to_native_optional noneObj inner obj st).1.cleanup t = t)) ∧
      (obj ≠ noneObj →
        (to_native_optional noneObj inner obj st).1.value =
          some ((inner.run obj st).1.1) ∧
        (to_native_optional noneObj inner obj st).1.is_error =
          (inner.run obj st).1.2 ∧
        (to_native_optional noneObj inner obj st).2 =
          (inner.run obj st).2 ∧
        (∀ t, runCleanup
            (to_native_optional noneObj inner obj st).1.cleanup t =
          runCleanup inner.cleanup t)) := by
  intro Obj α σ _ noneObj inner obj st
  constructor
  · intro heq
    subst heq
    rw [to_native_optional, if_neg (by simp)]
    refine ⟨rfl, rfl, ?_⟩
    intro t
    cases hc : inner.cleanup with
    | none => rfl
    | some c => simp [runCleanup, hc]
  · intro hne
    rw [to_native_optional, if_pos hne]
    refine ⟨rfl, rfl, rfl, ?_⟩
    intro t
    cases hc : inner.cleanup with
    | none => rfl
    | some c => simp [runCleanup, hc, hne]

/-- Witness for C7: with objects modeled as `Nat`, none singleton `0`,
and an inner conversion that records its invocation in a trace and has
a cleanup appending `99`: converting `0` yields the absent value with
no effect and an inert cleanup, converting `5` delegates fully. -/
theorem to_native_optional_branch_exclusivity_witness :
    ((to_native_optional 0
        ⟨fun o st => ((o + 1, false), st ++ [o]), some (· ++ [99])⟩
        (0 : Nat) ([] : List Nat)).1.value = none ∧
      (to_native_optional 0
        ⟨fun o st => ((o + 1, false), st ++ [o]), some (· ++ [99])⟩
        (0 : Nat) ([] : List Nat)).2 = [] ∧
      (∀ t, runCleanup (to_native_optional 0
        ⟨fun o st => ((o + 1, false), st ++ [o]), some (· ++ [99])⟩
        (0 : Nat) ([] : List Nat)).1.cleanup t = t)) ∧
    ((to_native_optional 0
        ⟨fun o st => ((o + 1, false), st ++ [o]), some (· ++ [99])⟩
        (5 : Nat) ([] : List Nat)).1.value = some 6 ∧
      (to_native_optional 0
        ⟨fun o st => ((o + 1, false), st ++ [o]), some (· ++ [99])⟩
        (5 : Nat) ([] : List Nat)).2 = [5]) := by
  constructor
  · exact (to_native_optional_branch_exclusivity Nat Nat (List Nat) 0
      ⟨fun o st => ((o + 1, false), st ++ [o]), some (· ++ [99])⟩
      0 []).1 rfl
  · have h := (to_native_optional_branch_exclusivity Nat Nat (List Nat) 0
      ⟨fun o st => ((o + 1, false), st ++ [o]), some (· ++ [99])⟩
      5 []).2 (by decide)
    exact ⟨h.1, h.2.2.1⟩

/-- Claim C10: the error flag of an `Optional(T)` conversion equals
`T`'s error flag on the present branch and `false` on the absent
branch: the error slot is initialized to `false_bit` and only the
present (non-none) branch ever stores to it, so converting the none
singleton always returns an unset error flag. -/
theorem to_native_optional_none_no_error :
    ∀ (Obj α σ : Type) [DecidableEq Obj] (noneObj : Obj)
      (inner : InnerConv Obj α σ) (obj : Obj) (st : σ),
      (to_native_optional noneObj inner obj st).1.is_error =
        (if obj ≠ noneObj then (inner.run obj st).1.2 else false) ∧
      (to_native_optional noneObj inner noneObj st).1.is_error = false := by
  intro Obj α σ _ noneObj inner obj st
  constructor
  · by_cases h : obj ≠ noneObj
    · rw [to_native_optional, if_pos h, if_pos h]
    · rw [to_native_optional, if_neg h, if_neg h]
  · rw [to_native_optional, if_neg (by simp)]

/-- Claim C8: within one module, serializing the same object twice
returns the identical embedded constant and performs no new encoding:
the second call hits the cache, leaving the module (in particular its
encoding count) unchanged. -/
theorem serialize_object_cached :
    ∀ (K : Type) [DecidableEq K] (m : SModule K) (obj : K),
      (serialize_object (serialize_object m obj).2 obj).1 =
        (serialize_object m obj).1 ∧
      (serialize_object (serialize_object m obj).2 obj).2 =
        (serialize_object m obj).2 ∧
      (serialize_object (serialize_object m obj).2 obj).2.encodeCount =
        (serialize_object m obj).2.encodeCount := by
  intro K _ m obj
  cases h : m.serialized.lookup obj with
  | some gv =>
      simp [serialize_object, h]
  | none =>
      simp [serialize_object, h, List.lookup]

theorem toBits_natCast (w bits : Nat) (hb : bits < 2 ^ w) :
    toBits w (bits : Int) = bits := by
  rw [toBits]
  have h1 : ((bits : Int)) % ((2 : Int) ^ w) = (bits : Int) := by
    apply Int.emod_eq_of_lt (by positivity)
    exact_mod_cast hb
  rw [h1, Int.toNat_natCast]

theorem toBits_sextV (w bits : Nat) (hw0 : 0 < w) (hw : w ≤ 64)
    (hb : bits < 2 ^ w) :
    toBits w (sextV w bits) = bits ∧
    -((2 : Int) ^ 63) ≤ sextV w bits ∧ sextV w bits < (2 : Int) ^ 63 := by
  have hA1 : (1 : Int) ≤ 2 ^ (w - 1) := one_le_pow₀ (by norm_num)
  have hAC : (2 : Int) ^ (w - 1) ≤ 2 ^ 63 :=
    pow_le_pow_right₀ (by norm_num) (by omega)
  have hBA : (2 : Int) ^ w = 2 * 2 ^ (w - 1) := by
    conv_lhs => rw [show w = (w - 1) + 1 by omega]
    rw [pow_succ]
    ring
  have hbI : (bits : Int) < 2 ^ w := by exact_mod_cast hb
  have hb0 : (0 : Int) ≤ (bits : Int) := Int.natCast_nonneg bits
  rw [sextV]
  by_cases hlt : bits < 2 ^ (w - 1)
  · have hltI : (bits : Int) < 2 ^ (w - 1) := by exact_mod_cast hlt
    rw [if_pos hlt]
    refine ⟨toBits_natCast w bits hb, by omega, by omega⟩
  · have hgeI : (2 : Int) ^ (w - 1) ≤ (bits : Int) := by
      have := Nat.le_of_not_lt hlt
      exact_mod_cast this
    rw [if_neg hlt]
    refine ⟨?_, by omega, by omega⟩
    rw [toBits, show ((bits : Int) - 2 ^ w) % 2 ^ w = (bits : Int) % 2 ^ w by
        simp [Int.sub_emod],
      Int.emod_eq_of_lt hb0 hbI, Int.toNat_natCast]

theorem getD_append_length {α : Type} (pre : List α) (x : α)
    (rest : List α) (d : α) :
    (pre ++ x :: rest).getD pre.length d = x := by
  induction pre with
  | nil => rfl
  | cons p ps ih => simpa using ih

theorem roundtrip_uni {F32 F64 : Type} (fpext : F32 → F64)
    (fptrunc : F64 → F32) (t : NType)
    (IH : ∀ v : NVal F32 F64, hasType t v →
      (to_native fptrunc t (from_native fpext t v)).2 = false ∧
      stripIdentity (to_native fptrunc t (from_native fpext t v)).1 =
        stripIdentity v) :
    ∀ (es : List (NVal F32 F64)) (pre : List (Box F64)),
      hasTypeUni t es →
      (∀ r ∈ to_native_uni fptrunc t
          (.pyTuple (pre ++ from_native_uni fpext t es)) pre.length
          es.length, r.2 = false) ∧
      (to_native_uni fptrunc t
          (.pyTuple (pre ++ from_native_uni fpext t es)) pre.length
          es.length).map (fun r => stripIdentity r.1) =
        stripIdentityList es := by
  intro es
  induction es with
  | nil =>
      intro pre _
      constructor
      · intro r hr
        rw [List.length_nil, to_native_uni] at hr
        cases hr
      · rw [List.length_nil, to_native_uni, List.map_nil, stripIdentityList]
  | cons v vs ihes =>
      intro pre hty
      rw [hasTypeUni] at hty
      obtain ⟨hv, hvs⟩ := hty
      rw [from_native_uni, List.length_cons, to_native_uni]
      have hget : tuple_getitem
          (Box.pyTuple (pre ++ from_native fpext t v ::
            from_native_uni fpext t vs)) pre.length =
          from_native fpext t v := by
        rw [tuple_getitem]
        exact getD_append_length pre _ _ _
      rw [hget]
      have hre : pre ++ from_native fpext t v :: from_native_uni fpext t vs
          = (pre ++ [from_native fpext t v]) ++ from_native_uni fpext t vs := by
        simp
      have hlen2 : pre.length + 1 = (pre ++ [from_native fpext t v]).length := by
        simp
      rw [hre, hlen2]
      obtain ⟨htail1, htail2⟩ := ihes (pre ++ [from_native fpext t v]) hvs
      obtain ⟨hhe, hhs⟩ := IH v hv
      constructor
      · intro r hr
        rcases List.mem_cons.mp hr with rfl | hr'
        · exact hhe
        · exact htail1 r hr'
      · rw [List.map_cons, hhs, htail2, stripIdentityList]

theorem roundtrip_zip {F32 F64 : Type} (fpext : F32 → F64)
    (fptrunc : F64 → F32) :
    ∀ (ts : List NType)
      (IH : ∀ t ∈ ts, ∀ v : NVal F32 F64, hasType t v →
        (to_native fptrunc t (from_native fpext t v)).2 = false ∧
        stripIdentity (to_native fptrunc t (from_native fpext t v)).1 =
          stripIdentity v)
      (es : List (NVal F32 F64)) (pre : List (Box F64)),
      hasTypeZip ts es →
      (∀ r ∈ to_native_zip fptrunc ts
          (.pyTuple (pre ++ from_native_zip fpext ts es)) pre.length,
        r.2 = false) ∧
      (to_native_zip fptrunc ts
          (.pyTuple (pre ++ from_native_zip fpext ts es))
          pre.length).map (fun r => stripIdentity r.1) =
        stripIdentityList es := by
  intro ts
  induction ts with
  | nil =>
      intro _ es pre hty
      cases es with
      | nil =>
          constructor
          · intro r hr
            rw [to_native_zip] at hr
            cases hr
          · rw [to_native_zip, List.map_nil, stripIdentityList]
      | cons e es' =>
          simp [hasTypeZip] at hty
  | cons t ts' ihts =>
      intro IH es pre hty
      cases es with
      | nil =>
          simp [hasTypeZip] at hty
      | cons v vs =>
          rw [hasTypeZip] at hty
          obtain ⟨hv, hvs⟩ := hty
          rw [from_native_zip, to_native_zip]
          have hget : tuple_getitem
              (Box.pyTuple (pre ++ from_native fpext t v ::
                from_native_zip fpext ts' vs)) pre.length =
              from_native fpext t v := by
            rw [tuple_getitem]
            exact getD_append_length pre _ _ _
          rw [hget]
          have hre : pre ++ from_native fpext t v ::
              from_native_zip fpext ts' vs
              = (pre ++ [from_native fpext t v]) ++
                from_native_zip fpext ts' vs := by
            simp
          have hlen2 : pre.length + 1 =
              (pre ++ [from_native fpext t v]).length := by
            simp
          rw [hre, hlen2]
          obtain ⟨htail1, htail2⟩ := ihts
            (fun t' ht' => IH t' (List.mem_cons_of_mem _ ht'))
            vs (pre ++ [from_native fpext t v]) hvs
          obtain ⟨hhe, hhs⟩ := IH t (List.mem_cons_self _ _) v hv
          constructor
          · intro r hr
            rcases List.mem_cons.mp hr with rfl | hr'
            · exact hhe
            · exact htail1 r hr'
          · rw [List.map_cons, hhs, htail2, stripIdentityList]

theorem foldl_or_false_of_all {γ : Type} (rs : List (γ × Bool))
    (h : ∀ r ∈ rs, r.2 = false) :
    rs.foldl (fun a r => a || r.2) false = false := by
  induction rs with
  | nil => rfl
  | cons r rest ih =>
      rw [List.foldl_cons, h r (List.mem_cons_self _ _)]
      exact ih (fun r' hr' => h r' (List.mem_cons_of_mem _ hr'))

theorem stripIdentityList_eq_map {F32 F64 : Type}
    (l : List (NVal F32 F64)) :
    stripIdentityList l = l.map stripIdentity := by
  induction l with
  | nil => rw [stripIdentityList, List.map_nil]
  | cons v vs ih => rw [stripIdentityList, List.map_cons, ih]

/-- Claim C1: for every supported Semantic Type `t` and every
representative native value `v` of that type, converting `v` to a boxed
object with `from_native` and back with `to_native` succeeds (error bit
unset) and reproduces `v` bit-for-bit up to object identity: the
payloads (`stripIdentity` images) are equal, which for the
reference-counted kinds (records, arrays, generator state) is exactly
the payload-only requirement, and for all value kinds (including the
opaque pyobject passthrough) is equality on the nose.  The hypothesis
on the float model is the IEEE fact that extending a single to a
double and truncating back is the identity. -/
theorem to_from_native_roundtrip :
    ∀ (F32 F64 : Type) (fpext : F32 → F64) (fptrunc : F64 → F32),
      (∀ x, fptrunc (fpext x) = x) →
      ∀ (t : NType) (v : NVal F32 F64), hasType t v →
        (to_native fptrunc t (from_native fpext t v)).2 = false ∧
        stripIdentity (to_native fptrunc t (from_native fpext t v)).1 =
          stripIdentity v := by
  intro F32 F64 fpext fptrunc htr
  suffices H : ∀ (N : Nat) (t : NType), sizeOf t ≤ N →
      ∀ v : NVal F32 F64, hasType t v →
        (to_native fptrunc t (from_native fpext t v)).2 = false ∧
        stripIdentity (to_native fptrunc t (from_native fpext t v)).1 =
          stripIdentity v by
    exact fun t v hv => H (sizeOf t) t (Nat.le_refl _) v hv
  intro N
  induction N with
  | zero =>
      intro t ht
      exfalso
      cases t <;> (simp at ht; try omega)
  | succ N ih =>
      intro t ht v hv
      cases t with
      | bool =>
          cases v <;> simp [hasType] at hv
          rename_i b
          cases b <;>
            simp [from_native, to_native, bool_from_long, object_istrue,
              stripIdentity]
      | int w signed =>
          cases v <;> simp [hasType] at hv
          rename_i bits
          obtain ⟨hw0, hw64, hbits⟩ := hv
          cases signed with
          | false =>
              have hb64 : bits < 2 ^ 64 :=
                lt_of_lt_of_le hbits (Nat.pow_le_pow_right (by norm_num) hw64)
              simp [from_native, to_native, number_long, long_as_ulonglong,
                stripIdentity, Int.natCast_nonneg]
              rw [if_pos (by omega : bits < 18446744073709551616)]
              exact ⟨rfl, toBits_natCast w bits hbits⟩
          | true =>
              obtain ⟨h1, h2, h3⟩ := toBits_sextV w bits hw0 hw64 hbits
              simp [from_native, to_native, number_long, long_as_longlong,
                stripIdentity]
              rw [if_pos (show (-9223372036854775808 : Int) ≤ sextV w bits ∧
                  sextV w bits < 9223372036854775808 by
                constructor
                · exact le_trans (by norm_num) h2
                · exact lt_of_lt_of_le h3 (by norm_num))]
              exact ⟨rfl, h1⟩
      | f32 =>
          cases v <;> simp [hasType] at hv
          simp [from_native, to_native, number_float, float_as_double,
            stripIdentity, htr]
      | f64 =>
          cases v <;> simp [hasType] at hv
          simp [from_native, to_native, number_float, float_as_double,
            stripIdentity]
      | c64 =>
          cases v <;> simp [hasType] at hv
          simp [from_native, to_native, complex_adaptor, stripIdentity, htr]
      | c128 =>
          cases v <;> simp [hasType] at hv
          simp [from_native, to_native, complex_adaptor, stripIdentity]
      | datetime u =>
          cases v <;> simp [hasType] at hv
          simp [from_native, to_native, extract_np_datetime, stripIdentity]
      | timedelta u =>
          cases v <;> simp [hasType] at hv
          simp [from_native, to_native, extract_np_timedelta, stripIdentity]
      | record n dtid =>
          cases v <;> simp [hasType] at hv
          simp [from_native, to_native, recreate_record, extract_record_data,
            stripIdentity]
      | array nd =>
          cases v <;> simp [hasType] at hv
          obtain ⟨hsh, hst, hpar⟩ := hv
          subst hpar
          simp [from_native, to_native, numba_array_adaptor, stripIdentity,
            hsh, hst]
      | unituple t n =>
          cases v <;> simp [hasType] at hv
          rename_i es
          obtain ⟨hlen, hall⟩ := hv
          subst hlen
          have hts : sizeOf t ≤ N := by
            simp at ht
            omega
          have IHt := ih t hts
          obtain ⟨h1, h2⟩ := roundtrip_uni fpext fptrunc t IHt es [] hall
          simp only [List.nil_append, List.length_nil] at h1 h2
          rw [from_native, to_native]
          constructor
          · exact foldl_or_false_of_all _ h1
          · rw [stripIdentity, stripIdentity, stripIdentityList_eq_map,
              stripIdentityList_eq_map, List.map_map]
            rw [stripIdentityList_eq_map] at h2
            exact congrArg NVal.tupV (by simpa [Function.comp] using h2)
      | tuple ts =>
          cases v <;> simp [hasType] at hv
          rename_i es
          have IHts : ∀ t' ∈ ts, ∀ v : NVal F32 F64, hasType t' v →
              (to_native fptrunc t' (from_native fpext t' v)).2 = false ∧
              stripIdentity
                  (to_native fptrunc t' (from_native fpext t' v)).1 =
                stripIdentity v := by
            intro t' ht' v'
            have hlt := List.sizeOf_lt_of_mem ht'
            have hts : sizeOf t' ≤ N := by
              simp at ht
              omega
            exact ih t' hts v'
          obtain ⟨h1, h2⟩ := roundtrip_zip fpext fptrunc ts IHts es [] hv
          simp only [List.nil_append, List.length_nil] at h1 h2
          rw [from_native, to_native]
          constructor
          · exact foldl_or_false_of_all _ h1
          · rw [stripIdentity, stripIdentity, stripIdentityList_eq_map,
              stripIdentityList_eq_map, List.map_map]
            rw [stripIdentityList_eq_map] at h2
            exact congrArg NVal.tupV (by simpa [Function.comp] using h2)
      | generator size =>
          cases v <;> simp [hasType] at hv
          rename_i addr state
          have htake : List.take size state = state := by
            rw [← hv]
            exact List.take_length state
          simp [from_native, to_native, numba_make_generator,
            get_generator_state, stripIdentity, htake]
      | pyobject =>
          cases v <;> simp [hasType] at hv
          simp [from_native, to_native, stripIdentity]

/-- Witness for C1: the round trip applied at the heterogeneous tuple
type (int8, record of 2 bytes, 1-d array, generator with a 3-byte
state structure, opaque pyobject) with floats modeled by `Int` and
identity casts, on a concrete representative value containing a signed
8-bit pattern, a record pointer, a well-formed array descriptor, a
generator state pointer, and a passed-through boxed handle. -/
theorem to_from_native_roundtrip_witness :
    hasType
      (.tuple [.int 8 true, .record 2 7, .array 1, .generator 3,
        .pyobject])
      (.tupV [.intV 200, .recV 3 [1, 2],
        .aryV 5 [4] [8] (.pyArray 5 [4] [8]), .genV 4 [7, 8, 9],
        .objV (.pyLong 42)] : NVal Int Int) ∧
    ((to_native (fun x => x)
        (.tuple [.int 8 true, .record 2 7, .array 1, .generator 3,
          .pyobject])
        (from_native (fun x => x)
          (.tuple [.int 8 true, .record 2 7, .array 1, .generator 3,
            .pyobject])
          (.tupV [.intV 200, .recV 3 [1, 2],
            .aryV 5 [4] [8] (.pyArray 5 [4] [8]), .genV 4 [7, 8, 9],
            .objV (.pyLong 42)] : NVal Int Int))).2 =
        false ∧
      stripIdentity
          (to_native (fun x => x)
            (.tuple [.int 8 true, .record 2 7, .array 1, .generator 3,
              .pyobject])
            (from_native (fun x => x)
              (.tuple [.int 8 true, .record 2 7, .array 1, .generator 3,
                .pyobject])
              (.tupV [.intV 200, .recV 3 [1, 2],
                .aryV 5 [4] [8] (.pyArray 5 [4] [8]), .genV 4 [7, 8, 9],
                .objV (.pyLong 42)] : NVal Int Int))).1 =
        stripIdentity (.tupV [.intV 200, .recV 3 [1, 2],
          .aryV 5 [4] [8] (.pyArray 5 [4] [8]), .genV 4 [7, 8, 9],
          .objV (.pyLong 42)] : NVal Int Int)) :=
  ⟨by norm_num [hasType, hasTypeZip, hasTypeUni],
    to_from_native_roundtrip Int Int (fun x => x) (fun x => x)
      (fun _ => rfl) _ _
      (by norm_num [hasType, hasTypeZip, hasTypeUni])⟩

end PyApi
